import Mathlib

/-!
Shallow embedding of the storchastic core: the tensor-graph data model,
cost registration and `denote_independent` (`storch/inference.py`), the
backward orchestrator (`storch/inference.py`), graph traversal
(`storch/util.py`) and the batch-average baseline
(`storch/method/baseline.py`).

Nodes are indexed by natural numbers; a `Graph` maps indices to node
data.  The numeric contents of tensors live in the external autodiff
engine and are abstracted: a tensor is modelled by its shape, its plate
list and its requires-grad flag, which is the information the
orchestration code inspects.  Python exceptions are modelled with
`Except String` or an error component; mutation of node fields is
modelled by threading the graph through each function.  `storch/tensor.py`
and `storch/wrappers.py` are not under src; every definition standing in
for them carries a doc comment starting `Modelled from the spec:`.
-/

/-- A plate: one named, sized batch dimension.  `Modelled from the spec:`
storch/tensor.py (class Plate) is not in src; per spec §3/§4.1 a plate is
identified by its (name, size) key, and carries a weighted-reduction
operation over its axis. -/
structure PlateT where
  name : String
  size : Nat
deriving DecidableEq, Repr, Inhabited

/-- A storch tensor value, abstracted to the data the orchestration code
inspects: the shape of the wrapped torch tensor, the ordered plate list
(plate dimensions occupy the leading axes, spec §3), and the
requires-grad flag.  Numeric entries are owned by the external autodiff
engine and are not modelled. -/
structure STensor where
  shape : List Nat
  plates : List PlateT
  requiresGrad : Bool
deriving DecidableEq, Repr, Inhabited

/-- Variant tag of a graph node (spec §3: Deterministic / Stochastic /
Cost / Independent). -/
inductive NodeKind where
  | det
  | stoch
  | cost
  | indep
deriving DecidableEq, Repr, Inhabited

/-- Data of one graph node.  `Modelled from the spec:` the node classes of
storch/tensor.py are not in src; per spec §3 a node wraps a tensor
(modelled by its shape), has ordered parent/child edge lists tagged with
a differentiability flag, a plate list, an optional name, a requires-grad
flag, and (for stochastic nodes) a sample count `n` plus references to
its sampling method and distribution (modelled as opaque identifiers
`methodId` / `distId`). -/
structure NodeData where
  kind : NodeKind
  tensor : List Nat
  plates : List PlateT
  parents : List (Nat × Bool)
  children : List (Nat × Bool)
  name : Option String
  requiresGrad : Bool
  nSamples : Nat
  methodId : Nat
  distId : Nat
deriving DecidableEq, Repr, Inhabited

/-- The heap of graph nodes, together with the external strategy
interface (spec §6): `addsLoss m p c` is `adds_loss` of the sampling
method `m` applied to node `p` and cost `c`; `estimate m p t` is the
estimator of method `m` applied to node `p` and reduced cost `t`;
`edgeDiff` abstracts the autodiff-engine query (`has_backwards_path`)
that decides the differentiability flag of a freshly constructed edge.
Node indices `≥ size` are unused slots. -/
structure Graph where
  size : Nat
  node : Nat → NodeData
  addsLoss : Nat → Nat → Nat → Bool
  estimate : Nat → Nat → STensor → STensor
  edgeDiff : Nat → Nat → Bool

/-- Overwrite the data of node `i`. -/
def Graph.setNode (g : Graph) (i : Nat) (d : NodeData) : Graph :=
  { g with node := fun j => if j = i then d else g.node j }

/-- Append a fresh node, returning the grown graph (the new node has
index `g.size`). -/
def Graph.push (g : Graph) (d : NodeData) : Graph :=
  { g.setNode g.size d with size := g.size + 1 }

/-- The parent indices of node `x`. -/
def parentIds (g : Graph) (x : Nat) : List Nat :=
  ((g.node x).parents).map Prod.fst

/-- The child indices of node `x`. -/
def childIds (g : Graph) (x : Nat) : List Nat :=
  ((g.node x).children).map Prod.fst

/-- Python truthiness of an optional string: `None` and `""` are falsy. -/
def pyTruthy : Option String → Bool
  | none => false
  | some s => decide (s ≠ "")

/-- Swap the entries at positions `i` and `j` of a list (used to model
`torch.transpose` on shapes and the parallel swap of plate lists in
inference.py lines 113-117). -/
def listSwap {α : Type} (l : List α) (i j : Nat) : List α :=
  match l.get? i, l.get? j with
  | some a, some b => (l.set i b).set j a
  | _, _ => l

/-- Event shape of a node: the wrapped tensor shape minus the plate
dimensions (spec §3: derived from tensor shape minus plate dimensions,
which occupy the leading axes). -/
def NodeData.eventShape (d : NodeData) : List Nat :=
  d.tensor.drop d.plates.length

/-- The multi-dimensional plates of a plate list.  `Modelled from the
spec:` `multi_dim_plates` of storch/tensor.py is not in src; per spec
§4.4 step 2 these are the plates with more than one entry. -/
def multiDimPlates (ps : List PlateT) : List PlateT :=
  ps.filter (fun p => decide (1 < p.size))

/-- `multi_dim_plates` of a storch tensor. -/
def STensor.multi_dim_plates (t : STensor) : List PlateT :=
  multiDimPlates t.plates

/-- Plate reduction.  `Modelled from the spec:` `Plate.reduce` of
storch/tensor.py is not in src; per spec §4.1 it contracts this plate's
axis (its position in the tensor's plate list, plates being the leading
axes) by a weighted sum.  The weighted sum itself lives in the abstracted
numeric domain; `detachWeights` only governs gradient flow through the
weights (spec §3) and does not change the plate/shape bookkeeping
modelled here. -/
def PlateT.reduce (p : PlateT) (t : STensor) (detachWeights : Bool) : STensor :=
  let _ := detachWeights
  match t.plates.findIdx? (fun q => decide (q = p)) with
  | some i => { shape := t.shape.eraseIdx i, plates := t.plates.erase p,
                requiresGrad := t.requiresGrad }
  | none => t

/-- `squeeze(0)` on a storch tensor.  `Modelled from the spec:`
storch/tensor.py is not in src; torch semantics: drop axis 0 iff it has
size 1. -/
def STensor.squeeze0 (t : STensor) : STensor :=
  if t.shape.headD 0 = 1 then { t with shape := t.shape.drop 1 } else t

/-- Addition of two storch tensors.  `Modelled from the spec:` the
broadcasting wrapper of storch/tensor.py is not in src; the result spans
the union of the operands' plates, takes the larger shape, and requires
grad if either operand does.  Numeric values are abstracted. -/
def tensorAdd (a b : STensor) : STensor :=
  { shape := if b.shape.length ≤ a.shape.length then a.shape else b.shape,
    plates := a.plates ++ b.plates.filter (fun q => decide (q ∉ a.plates)),
    requiresGrad := a.requiresGrad || b.requiresGrad }

/-- A Python numeric variable that starts as the float literal `0.0` and
may become a storch tensor by accumulation (`total_cost` and
`accum_loss` in inference.py).  The float's rational value is carried
for the zero-initialisation; float/tensor sums keep the tensor
(the scalar shift being a numeric value this model abstracts). -/
inductive PyNum where
  | float (x : Rat)
  | tensor (t : STensor)
deriving DecidableEq, Repr, Inhabited

/-- `x += t` where `x` is a `PyNum` and `t` a storch tensor. -/
def pyAdd : PyNum → STensor → PyNum
  | .float _, t => .tensor t
  | .tensor a, t => .tensor (tensorAdd a t)

/-- The `._tensor` attribute access performed by the `return` statement of
`backward` (inference.py line 173): a Python float has no `_tensor`
attribute. -/
def PyNum.tensorAttr : PyNum → Except String STensor
  | .float _ => .error "AttributeError: float object has no attribute _tensor"
  | .tensor t => .ok t

/-- Insertion into a Python `set`, modelled as an insertion-ordered
duplicate-free list (`stochastic_nodes.add(parent)` in inference.py
line 91). -/
def pySetAdd (s : List Nat) (x : Nat) : List Nat :=
  if x ∈ s then s else s ++ [x]

/-- Constructor of an `IndependentTensor` node.  `Modelled from the
spec:` storch/tensor.py is not in src; per spec §4.2 the new node's
plate list is the given plates plus the single new plate (sized by the
fronted dimension), the given nodes become its dependencies (edges
mirrored parent/child with a construction-time differentiability flag,
spec §3), and the passed name is stored verbatim. -/
def IndependentTensor (g : Graph) (t : List Nat) (plates : List PlateT)
    (parents : List Nat) (rg : Bool) (nm : String) : Graph × Nat :=
  let newId := g.size
  let nd : NodeData :=
    { kind := .indep, tensor := t, plates := plates ++ [⟨nm, t.headD 0⟩],
      parents := parents.map (fun p => (p, g.edgeDiff p newId)),
      children := [], name := some nm, requiresGrad := rg,
      nSamples := 1, methodId := 0, distId := 0 }
  let g := g.push nd
  let g := parents.foldl
    (fun g p =>
      g.setNode p
        (let e := g.node p
         { e with children := e.children ++ [(newId, g.edgeDiff p newId)] }))
    g
  (g, newId)

/-- A raw torch tensor (not yet a storch node), abstracted to its shape
and requires-grad flag. -/
structure RawTensor where
  shape : List Nat
  requiresGrad : Bool
deriving DecidableEq, Repr, Inhabited

/-- `denote_independent` (inference.py lines 13-40).  The context flags of
storch/wrappers.py are passed as arguments (`Modelled from the spec:`
storch/wrappers.py is not in src; §4.2 requires failing inside a
deterministic or stochastic tracing context). -/
def denote_independent (g : Graph) (tensor : Sum RawTensor Nat) (dim : Nat)
    (plate_name : String) (ctxStochastic : Bool) (ctxDeterministic : Nat) :
    Except String (Graph × Nat) :=
  if ctxStochastic || decide (0 < ctxDeterministic) then
    .error "Cannot create independent tensors within a deterministic or stochastic context."
  else
    match tensor with
    | .inl t =>
        let sh := if dim ≠ 0 then listSwap t.shape dim 0 else t.shape
        .ok (IndependentTensor g sh [] [] t.requiresGrad plate_name)
    | .inr i =>
        let t_tensor := (g.node i).tensor
        let t_tensor := if dim ≠ 0 then listSwap t_tensor dim 0 else t_tensor
        let name :=
          if pyTruthy (g.node i).name then
            ((g.node i).name.getD "") ++ "_indep_" ++ plate_name
          else plate_name
        .ok (IndependentTensor g t_tensor (g.node i).plates [i]
              ((g.node i).requiresGrad) name)

/-- `add_cost` (inference.py lines 43-53).  The construction of the
`CostTensor` wrapper follows spec §4.3 (`Modelled from the spec:`
storch/tensor.py is not in src): the new Cost node's sole parent is the
input node, it inherits the input's plates, and the mirrored child edge
is appended to the input (spec §3 edge symmetry); the parent-edge
differentiability flag is decided by the external autodiff walk,
abstracted as `g.edgeDiff`.  The registry is appended to only when
gradient mode is enabled. -/
def add_cost (g : Graph) (cost : Nat) (name : Option String)
    (gradEnabled : Bool) (registry : List Nat) :
    Except String (Graph × Nat × List Nat) :=
  if (g.node cost).eventShape ≠ [] then
    .error "Can only register cost functions with empty event shapes"
  else if !(pyTruthy name) then
    .error "No name provided to register cost node. Make sure to register an unique name with the cost."
  else
    let newId := g.size
    let fl := g.edgeDiff cost newId
    let nd : NodeData :=
      { kind := .cost, tensor := (g.node cost).tensor,
        plates := (g.node cost).plates, parents := [(cost, fl)],
        children := [], name := name,
        requiresGrad := (g.node cost).requiresGrad,
        nSamples := 1, methodId := 0, distId := 0 }
    let g := g.push nd
    let g := g.setNode cost
      (let e := g.node cost
       { e with children := e.children ++ [(newId, fl)] })
    .ok (g, newId, if gradEnabled then registry ++ [newId] else registry)

/-- `reset` (inference.py lines 176-177): rebinds the process-wide cost
registry to the empty list. -/
def reset (registry : List Nat) : List Nat :=
  let _ := registry
  []

namespace BatchAverageBaseline

/-- `BatchAverageBaseline.compute_baseline` (baseline.py lines 36-45).
The cost tensor is modelled as the list of its per-sample values (axis 0
being the sample plate); `detach` calls do not change values.  Rational
division stands in for torch division (division by zero yields 0 here
rather than inf, which no stated property depends on). -/
def compute_baseline (n : Nat) (costs : List Rat) : Except String (List Rat) :=
  if n = 1 then
    .error "Can only use the batch average baseline if multiple samples are used."
  else
    let s := costs.foldl (· + ·) 0
    .ok (costs.map (fun c => (s - c) / ((costs.length : Rat) - 1)))

end BatchAverageBaseline

/-- The per-parent local `edges` dictionary of `topological_sort`
(util.py line 119): maps a node index to its remaining live-children
list, `none` meaning the entry has not been created yet. -/
def EMap : Type := Nat → Option (List Nat)

/-- The remaining live-children list of `p`: the stored entry if one was
created, otherwise the freshly computed `list(map(lambda ch: ch[0],
p._children))` (util.py line 127). -/
def remAt (g : Graph) (em : EMap) (p : Nat) : List Nat :=
  (em p).getD (childIds g p)

/-- The inner `for (p, _) in n._parents` loop of `topological_sort`
(util.py lines 123-131): for each parent, fetch or create its remaining
children list, remove the popped node `n` from it (`list.remove` raises
`ValueError` when absent), and append the parent to the frontier when the
list empties. -/
def topoParents (g : Graph) (n : Nat) :
    List (Nat × Bool) → List Nat → EMap → Except String (List Nat × EMap)
  | [], s, em => .ok (s, em)
  | (p, _) :: rest, s, em =>
      let children := remAt g em p
      if n ∈ children then
        let children := children.erase n
        let em : EMap := fun q => if q = p then some children else em q
        let s := if children = [] then s ++ [p] else s
        topoParents g n rest s em
      else .error "ValueError: list.remove(x): x not in list"

/-- The `while s:` loop of `topological_sort` (util.py lines 120-131):
pop the last frontier element (`s.pop()`), append it to the output, and
process its parents.  The graph heap is threaded through and returned:
the loop's statements write only the locals `l`, `s` and `edges`.  The
fuel `g.size + 1` bounds the iteration count: every node enters the
frontier at most once (proved below for valid inputs). -/
def topoLoop (g : Graph) :
    Nat → List Nat → List Nat → EMap → Except String (List Nat) × Graph
  | 0, _, _, _ => (.error "fuel exhausted", g)
  | fuel + 1, l, s, em =>
    match s.getLast? with
    | none => (.ok l, g)
    | some n =>
      match topoParents g n (g.node n).parents s.dropLast em with
      | .error e => (.error e, g)
      | .ok (s', em') => topoLoop g fuel (l ++ [n]) s' em'

/-- `topological_sort` (util.py lines 108-132): reverse Kahn's algorithm.
Validates that every input is a Cost node with no children, then runs the
frontier loop starting from a copy of the input list.  The returned graph
is the heap after the call. -/
def topological_sort (g : Graph) (costs : List Nat) :
    Except String (List Nat) × Graph :=
  if costs.all (fun c =>
      decide ((g.node c).kind = .cost ∧ (g.node c).children = [])) then
    topoLoop g (g.size + 1) [] costs (fun _ => none)
  else
    (.error "The inputs of the topological sort should only contain cost nodes.", g)

/-- Breadth-first worklist for `walk_parents`: pop the queue head, skip
already-visited nodes, otherwise record the node and enqueue its
parents. -/
def walkBFS (g : Graph) : Nat → List Nat → List Nat → List Nat
  | 0, _, visited => visited
  | _ + 1, [], visited => visited
  | fuel + 1, x :: q, visited =>
      if x ∈ visited then walkBFS g fuel q visited
      else walkBFS g fuel (q ++ parentIds g x) (visited ++ [x])

/-- Fuel for the parent walk: one unit per parent edge reachable plus
slack, enough for the queue to drain on any graph whose edges stay in
range. -/
def walkFuel (g : Graph) : Nat :=
  2 * (List.range g.size).foldl (fun a i => a + (g.node i).parents.length) 0
    + g.size + 1

/-- `c.walk_parents(depth_first=False)` as consumed by `backward`
(inference.py line 88).  `Modelled from the spec:` `Tensor.walk_parents`
of storch/tensor.py is not in src; per spec §4.4 step 3 and §4.5 it
walks all parents of `c` transitively, breadth-first, yielding each
ancestor once. -/
def walkParents (g : Graph) (c : Nat) : List Nat :=
  walkBFS g (walkFuel g) (parentIds g c) []

/-- State threaded through the cost loop of `backward` (inference.py
lines 73-162): the graph heap, the two Python accumulators, the
`stochastic_nodes` set, and two instrumentation traces recording the
ancestor walks performed and the estimator invocations
`(ancestor, reduced_cost)` in order. -/
structure BState where
  g : Graph
  total : PyNum
  accum : PyNum
  snodes : List Nat
  walks : List (Nat × List Nat)
  estimCalls : List (Nat × STensor)

/-- The reduction of inference.py lines 102-107: starting from
`reduced_cost = c`, for every multi-dim plate of `c` absent from the
parent's plates, overwrite `reduced_cost` with `plate.reduce(c, True)`.
NB the source reduces the original `c` each time, not the accumulated
`reduced_cost` (inference.py line 107). -/
def reducedCostLoop (cT : STensor) (parentPlates : List PlateT) : STensor :=
  cT.multi_dim_plates.foldl
    (fun reduced plate =>
      if plate ∈ parentPlates then reduced else plate.reduce cT true)
    cT

/-- The alignment loop of inference.py lines 110-117: for each indexed
multi-dim plate of `reduced_cost`, look up its position in the mutable
`parent_plates` list (`list.index` raises `ValueError` when absent) and,
when the positions differ, transpose the parent tensor's axes and swap
the plate-list entries in parallel. -/
def alignLoop :
    List (Nat × PlateT) → List PlateT → List Nat →
    Except String (List PlateT × List Nat)
  | [], pp, sh => .ok (pp, sh)
  | (ic, pl) :: rest, pp, sh =>
    match pp.findIdx? (fun q => decide (q = pl)) with
    | none => .error "ValueError: x is not in list"
    | some ip =>
        if ic ≠ ip then alignLoop rest (listSwap pp ip ic) (listSwap sh ip ic)
        else alignLoop rest pp sh

/-- The graph splice of inference.py lines 124-141: create the transient
`new_parent` node (fresh index), overwrite its parent list with the
ancestor's (`new_parent._parents = parent._parents`), append it to the
`_children` list of each of the ancestor's parents, and copy the
ancestor's (possibly just updated) child list onto it. -/
def spliceTransient (g : Graph) (parent : Nat) (nd : NodeData) : Graph :=
  let newId := g.size
  let d := g.node parent
  let g := g.push nd
  -- new_parent._parents = parent._parents (line 138)
  let g := g.setNode newId { nd with parents := d.parents }
  -- for p, has_link in new_parent._parents: p._children.append(...) (lines 139-140)
  let g := d.parents.foldl
    (fun g pb =>
      g.setNode pb.1
        (let e := g.node pb.1
         { e with children := e.children ++ [(newId, pb.2)] }))
    g
  -- new_parent._children = parent._children (line 141)
  g.setNode newId
    (let e := g.node newId
     { e with children := (g.node parent).children })

/-- The body of `for parent in c.walk_parents(depth_first=False)`
(inference.py lines 88-158) for a single ancestor: record stochastic
ancestors in the set, skip non-stochastic / no-grad / no-loss ancestors,
otherwise reduce the cost over plates missing from the parent, align the
parent's plate order to the reduced cost, splice a transient dimension-
aligned stochastic node into the graph at the parent's position
(appending it to the children of each of the parent's parents), invoke
the estimator, reduce its output over its multi-dim plates, squeeze a
leading singleton axis, and accumulate.  Returns the state together with
the pending exception, if any. -/
def parentStep (c : Nat) (cT : STensor) (st : BState) (parent : Nat) :
    BState × Option String :=
  let d := st.g.node parent
  let st :=
    if d.kind = .stoch then { st with snodes := pySetAdd st.snodes parent }
    else st
  if ¬(d.kind = .stoch) ∨ ¬d.requiresGrad ∨
      ¬(st.g.addsLoss d.methodId parent c) then
    (st, none)
  else
    let parent_tensor := d.tensor
    let parent_plates := multiDimPlates d.plates
    let reduced_cost := reducedCostLoop cT parent_plates
    match alignLoop reduced_cost.multi_dim_plates.enum parent_plates
        parent_tensor with
    | .error e => (st, some e)
    | .ok (parent_plates, parent_tensor) =>
      let parent_plates :=
        parent_plates ++ d.plates.filter (fun q => decide (q ∉ parent_plates))
      let newId := st.g.size
      let nd : NodeData :=
        { kind := .stoch, tensor := parent_tensor, plates := parent_plates,
          parents := [], children := [], name := d.name,
          requiresGrad := d.requiresGrad, nSamples := d.nSamples,
          methodId := d.methodId, distId := d.distId }
      let g := spliceTransient st.g parent nd
      let cost_per_sample := g.estimate d.methodId newId reduced_cost
      let final_reduced_cost := cost_per_sample.multi_dim_plates.foldl
        (fun a p => p.reduce a true) cost_per_sample
      let final_reduced_cost :=
        if final_reduced_cost.shape.length = 1 then final_reduced_cost.squeeze0
        else final_reduced_cost
      ({ st with g := g, accum := pyAdd st.accum final_reduced_cost,
                 estimCalls := st.estimCalls ++ [(parent, reduced_cost)] },
       none)

/-- Run `parentStep` across the walked ancestors, stopping at the first
pending exception (Python exceptions abort the loop, keeping the
mutations already performed). -/
def runParents (c : Nat) (cT : STensor) :
    List Nat → BState → BState × Option String
  | [], st => (st, none)
  | p :: rest, st =>
    match parentStep c cT st p with
    | (st', none) => runParents c cT rest st'
    | err => err

/-- One iteration of `for c in costs` (inference.py lines 79-162):
reduce the cost over all of its multi-dim plates into `avg_cost`
(weights not detached), add it to `total_cost`, walk the stochastic
ancestors, and finally add `avg_cost` to `accum_loss` when it requires
grad. -/
def costStep (st : BState) (c : Nat) : BState × Option String :=
  let cT : STensor :=
    { shape := (st.g.node c).tensor, plates := (st.g.node c).plates,
      requiresGrad := (st.g.node c).requiresGrad }
  let avg_cost := cT.multi_dim_plates.foldl (fun a p => p.reduce a false) cT
  let st := { st with total := pyAdd st.total avg_cost }
  let w := walkParents st.g c
  let st := { st with walks := st.walks ++ [(c, w)] }
  match runParents c cT w st with
  | (st', none) =>
      ({ st' with accum :=
          if avg_cost.requiresGrad then pyAdd st'.accum avg_cost
          else st'.accum },
       none)
  | err => err

/-- Run `costStep` across the registered costs, stopping at the first
pending exception. -/
def runCosts : List Nat → BState → BState × Option String
  | [], st => (st, none)
  | c :: rest, st =>
    match costStep st c with
    | (st', none) => runCosts rest st'
    | err => err

/-- Result of one `backward` call: the graph heap after the call, the
cost registry after the call, whether control reached the
post-loop epilogue (line 164), whether the external engine's backward
pass was triggered, the `_update_parameters` invocations in order, the
instrumentation traces, the two accumulators at return time, and the
returned pair or the propagated exception. -/
structure BackwardResult where
  graph : Graph
  registry : List Nat
  completed : Bool
  torchBackward : Bool
  updateCalls : List Nat
  walks : List (Nat × List Nat)
  estimCalls : List (Nat × STensor)
  total : PyNum
  accum : PyNum
  ret : Except String (STensor × STensor)

/-- `backward` (inference.py lines 56-173).  An exception inside the cost
loop propagates immediately: no parameter updates run and the registry is
left unchanged.  Otherwise the engine backward pass fires when
`accum_loss` is a tensor requiring grad, `_update_parameters` runs once
per element of the `stochastic_nodes` set, the registry is cleared unless
`retain_graph`, and the return statement accesses `._tensor` on both
accumulators (raising `AttributeError` when one is still the float
`0.0`). -/
def backward (g : Graph) (registry : List Nat) (retain_graph : Bool) :
    BackwardResult :=
  let costs := registry
  let st0 : BState := ⟨g, .float 0, .float 0, [], [], []⟩
  match runCosts costs st0 with
  | (st, some e) =>
      { graph := st.g, registry := registry, completed := false,
        torchBackward := false, updateCalls := [], walks := st.walks,
        estimCalls := st.estimCalls, total := st.total, accum := st.accum,
        ret := .error e }
  | (st, none) =>
      let tb := match st.accum with
        | .tensor t => t.requiresGrad
        | .float _ => false
      let reg' := if retain_graph then registry else reset registry
      let ret : Except String (STensor × STensor) :=
        match st.total.tensorAttr with
        | .error e => .error e
        | .ok t =>
          match st.accum.tensorAttr with
          | .error e => .error e
          | .ok a => .ok (t, a)
      { graph := st.g, registry := reg', completed := true,
        torchBackward := tb, updateCalls := st.snodes, walks := st.walks,
        estimCalls := st.estimCalls, total := st.total, accum := st.accum,
        ret := ret }

/-! ### Example graphs and validity predicates -/

/-- A blank deterministic node used as the base of concrete examples and
as the content of unused heap slots. -/
def dNode : NodeData :=
  { kind := .det, tensor := [], plates := [], parents := [], children := [],
    name := none, requiresGrad := false, nSamples := 1, methodId := 0,
    distId := 0 }

/-- Build a concrete graph with `n` nodes, an always-true `adds_loss`, an
estimator returning the reduced cost unchanged, and all construction
flags differentiable. -/
def mkGraph (n : Nat) (f : Nat → NodeData) : Graph :=
  { size := n, node := f, addsLoss := fun _ _ _ => true,
    estimate := fun _ _ t => t, edgeDiff := fun _ _ => true }

/-- Graph with no nodes at all (the registry starts empty). -/
def gTriv : Graph := mkGraph 0 (fun _ => dNode)

/-- Diamond graph: one stochastic node (2) feeding two cost nodes (0, 1). -/
def gDiamond : Graph := mkGraph 3 (fun i =>
  if i = 0 then { dNode with kind := .cost, parents := [(2, true)] }
  else if i = 1 then { dNode with kind := .cost, parents := [(2, true)] }
  else if i = 2 then
    { dNode with kind := .stoch, children := [(0, true), (1, true)],
                 nSamples := 2 }
  else dNode)

/-- Cost 0 fed by stochastic node 1, which also feeds a deterministic
sink 2 that is not a registered cost. -/
def gCex : Graph := mkGraph 3 (fun i =>
  if i = 0 then { dNode with kind := .cost, parents := [(1, true)] }
  else if i = 1 then
    { dNode with kind := .stoch, children := [(0, true), (2, true)] }
  else if i = 2 then { dNode with kind := .det, parents := [(1, true)] }
  else dNode)

/-- One named node to feed `denote_independent`. -/
def gName : Graph := mkGraph 1 (fun i =>
  if i = 0 then { dNode with name := some "x", tensor := [2] } else dNode)

/-- The graph and node index produced by the first `denote_independent`
call on `gName` (the call cannot fail outside a tracing context). -/
def gName1 : Graph × Nat :=
  (denote_independent gName (.inr 0) 0 "p" false 0).toOption.getD (gName, 0)

/-- The graph and node index produced by a second `denote_independent`
call, applied to the result of the first. -/
def gName2 : Graph × Nat :=
  (denote_independent gName1.1 (.inr gName1.2) 0 "p" false 0).toOption.getD
    (gName, 0)

/-- Chain `cost 0 ← stochastic 1 ← deterministic 2` with gradients
required everywhere relevant. -/
def gB : Graph := mkGraph 3 (fun i =>
  if i = 0 then
    { dNode with kind := .cost, parents := [(1, true)], requiresGrad := true }
  else if i = 1 then
    { dNode with kind := .stoch, parents := [(2, true)],
                 children := [(0, true)], requiresGrad := true, nSamples := 2 }
  else if i = 2 then { dNode with kind := .det, children := [(1, true)] }
  else dNode)

/-- Two plates of size 2 and a cost tensor carrying both. -/
def aP : PlateT := ⟨"a", 2⟩

/-- Second size-2 plate. -/
def bP : PlateT := ⟨"b", 2⟩

/-- Cost tensor spanning the two size-2 plates `aP` and `bP`. -/
def cT2 : STensor := ⟨[2, 2], [aP, bP], true⟩

/-- Cost node 0 spanning plates `aP`, `bP`, fed by a stochastic node 1
that spans no multi-dimensional plate. -/
def gC2 : Graph := mkGraph 2 (fun i =>
  if i = 0 then
    { dNode with kind := .cost, tensor := [2, 2], plates := [aP, bP],
                 parents := [(1, true)], requiresGrad := true }
  else if i = 1 then
    { dNode with kind := .stoch, children := [(0, true)],
                 requiresGrad := true, nSamples := 2 }
  else dNode)

/-- Cost 0 fed by two stochastic ancestors: node 1 does not require grad
(so it is skipped for the surrogate loss) while node 2 is estimated. -/
def gS : Graph := mkGraph 3 (fun i =>
  if i = 0 then
    { dNode with kind := .cost, parents := [(1, true), (2, true)],
                 requiresGrad := true }
  else if i = 1 then
    { dNode with kind := .stoch, children := [(0, true)],
                 requiresGrad := false, nSamples := 2 }
  else if i = 2 then
    { dNode with kind := .stoch, children := [(0, true)],
                 requiresGrad := true, nSamples := 2 }
  else dNode)

/-- `y` occurs strictly before `x` in the list `l`. -/
def Before (l : List Nat) (y x : Nat) : Prop :=
  ∃ l₁ l₂, l = l₁ ++ x :: l₂ ∧ y ∈ l₁

/-- Reachability from the registered costs along parent edges: the costs
themselves and, transitively, every parent of a reachable node (the
ancestors that the backward pass and the spec of `topological_sort`
speak about). -/
inductive Reach (g : Graph) (costs : List Nat) : Nat → Prop
  | base {c : Nat} : c ∈ costs → Reach g costs c
  | step {a p : Nat} : Reach g costs a → p ∈ parentIds g a → Reach g costs p

/-- Validity of a `topological_sort` input: distinct cost-node sinks over
a finite graph with in-range, duplicate-free, symmetric parent/child
edges, acyclic as witnessed by a rank function decreasing from parents to
children, and whose reachable set is closed under child edges. -/
structure TopoValid (g : Graph) (costs : List Nat) (rank : Nat → Nat) : Prop where
  costs_lt : ∀ c ∈ costs, c < g.size
  costs_cost : ∀ c ∈ costs, (g.node c).kind = .cost
  costs_sink : ∀ c ∈ costs, (g.node c).children = []
  costs_nodup : costs.Nodup
  par_lt : ∀ x, x < g.size → ∀ y ∈ parentIds g x, y < g.size
  par_nodup : ∀ x, x < g.size → (parentIds g x).Nodup
  chi_nodup : ∀ x, x < g.size → (childIds g x).Nodup
  symm : ∀ x, x < g.size → ∀ y, y < g.size →
    (y ∈ parentIds g x ↔ x ∈ childIds g y)
  rank_lt : ∀ x, x < g.size → ∀ y ∈ childIds g x, rank y < rank x
  closed : ∀ x, Reach g costs x → ∀ y ∈ childIds g x, Reach g costs y

/-- Invariant of the `topological_sort` frontier loop relating the output
accumulator `l`, the frontier `s` and the local `edges` dictionary. -/
structure TopoInv (g : Graph) (costs : List Nat) (l s : List Nat)
    (em : EMap) : Prop where
  nl : l.Nodup
  ns : s.Nodup
  disj : ∀ x ∈ s, x ∉ l
  rl : ∀ x ∈ l, Reach g costs x
  rs : ∀ x ∈ s, Reach g costs x
  rem_eq : ∀ p, p < g.size →
    remAt g em p = (childIds g p).filter (fun y => decide (y ∉ l))
  s_char : ∀ x, x ∈ s ↔
    (Reach g costs x ∧ x ∉ l ∧ ∀ y ∈ childIds g x, y ∈ l)
  ord : ∀ x ∈ l, ∀ y ∈ childIds g x, Before l y x

/-- All parent edges of in-range nodes stay in range. -/
def ClosedGraph (g : Graph) : Prop :=
  ∀ i, i < g.size → ∀ e ∈ (g.node i).parents, e.1 < g.size

/-- Executable check of `ClosedGraph` for concrete graphs. -/
def closedGraphB (g : Graph) : Bool :=
  (List.range g.size).all
    (fun i => (g.node i).parents.all (fun e => decide (e.1 < g.size)))

/-- Two node records agree on every field except possibly `children`. -/
def SameNonChild (a b : NodeData) : Prop :=
  a.kind = b.kind ∧ a.tensor = b.tensor ∧ a.plates = b.plates ∧
  a.parents = b.parents ∧ a.name = b.name ∧
  a.requiresGrad = b.requiresGrad ∧ a.nSamples = b.nSamples ∧
  a.methodId = b.methodId ∧ a.distId = b.distId

/-- How one `backward` call may transform the heap: `calls` is the trace
of estimator invocations.  Exactly one transient node is created per
invocation; every pre-existing node keeps every field except `children`,
which is only ever extended, and only with edges pointing at transient
nodes; each transient node shares the parent list of the ancestor it was
built from. -/
structure GraphExtends (g₀ g₁ : Graph) (calls : List (Nat × STensor)) : Prop where
  size_eq : g₁.size = g₀.size + calls.length
  addsLoss_eq : g₁.addsLoss = g₀.addsLoss
  estimate_eq : g₁.estimate = g₀.estimate
  edgeDiff_eq : g₁.edgeDiff = g₀.edgeDiff
  node_pres : ∀ i, i < g₀.size → SameNonChild (g₁.node i) (g₀.node i)
  children_ext : ∀ i, i < g₀.size → ∃ ext,
    (g₁.node i).children = (g₀.node i).children ++ ext ∧
    ∀ e ∈ ext, g₀.size ≤ e.1
  calls_lt : ∀ e ∈ calls, e.1 < g₀.size
  transient_parents : ∀ j, j < calls.length →
    (g₁.node (g₀.size + j)).parents =
      (g₀.node (calls.getD j (0, default)).1).parents

/-- Every node visited by a recorded ancestor walk is a pre-existing
node. -/
def WalksBound (g : Graph) (st : BState) : Prop :=
  ∀ cw ∈ st.walks, ∀ x ∈ cw.2, x < g.size

/-- The `stochastic_nodes` set holds exactly the stochastic nodes seen by
some recorded walk, each once. -/
def SnodesChar (g : Graph) (st : BState) : Prop :=
  st.snodes.Nodup ∧
  ∀ x, x ∈ st.snodes ↔
    ((g.node x).kind = .stoch ∧ ∃ cw ∈ st.walks, x ∈ cw.2)

/-! ### Helper lemmas -/

/-- Appending child edges to nodes never changes any node's name. -/
theorem foldl_children_name (newId : Nat) :
    ∀ (ps : List Nat) (h : Graph) (q : Nat),
      ((ps.foldl (fun g p => g.setNode p
          (let e := g.node p
           { e with children := e.children ++ [(newId, g.edgeDiff p newId)] }))
          h).node q).name = (h.node q).name := by
  intro ps
  induction ps with
  | nil => intro h q; rfl
  | cons p rest ih =>
      intro h q
      rw [List.foldl_cons, ih]
      unfold Graph.setNode
      by_cases hq : q = p <;> simp [hq]

/-- The node returned by the `IndependentTensor` constructor carries the
passed name verbatim. -/
theorem IndependentTensor_name (g : Graph) (t : List Nat) (pl : List PlateT)
    (ps : List Nat) (rg : Bool) (nm : String) :
    (((IndependentTensor g t pl ps rg nm).1).node
        (IndependentTensor g t pl ps rg nm).2).name = some nm := by
  unfold IndependentTensor
  dsimp only
  rw [foldl_children_name]
  simp [Graph.push, Graph.setNode]

/-- Gluing `"_indep_"` in the middle strictly lengthens a string. -/
theorem append_indep_ne (s t : String) : s ++ "_indep_" ++ t ≠ s := by
  intro hcon
  have hlen := congrArg String.length hcon
  have h7 : ("_indep_" : String).length = 7 := rfl
  simp [String.length_append, h7] at hlen
  omega

/-- A string with `"_indep_"` glued in is never empty. -/
theorem append_indep_ne_empty (s t : String) : s ++ "_indep_" ++ t ≠ "" := by
  intro hcon
  have hlen := congrArg String.length hcon
  have h7 : ("_indep_" : String).length = 7 := rfl
  simp [String.length_append, h7] at hlen

/-! ### C1 -/

/-- C1: with an empty cost registry, `backward` performs no graph walk
and leaves both accumulators at the float `0.0`, but instead of
returning a `(0, 0)`-equivalent pair the return statement raises
`AttributeError` when accessing `._tensor` on the float — for every
graph and either value of `retain_graph`. -/
theorem backward_empty_registry_raises :
    ∀ (g : Graph) (retain : Bool),
      (backward g [] retain).ret =
        .error "AttributeError: float object has no attribute _tensor" ∧
      (backward g [] retain).total = .float 0 ∧
      (backward g [] retain).accum = .float 0 ∧
      (backward g [] retain).walks = [] ∧
      (backward g [] retain).estimCalls = [] ∧
      (backward g [] retain).updateCalls = [] ∧
      (backward g [] retain).registry = [] := by
  intro g retain
  cases retain <;> exact ⟨rfl, rfl, rfl, rfl, rfl, rfl, rfl⟩

/-! ### C2 -/

/-- C2: the reduction of inference.py lines 105-107 reduces the original
cost `c` on every iteration, so when two multi-dim plates of the cost are
missing from the parent only the last one is contracted: on a cost over
plates `[aP, bP]` and a parent with no multi-dim plates the reduced cost
still spans `aP`.  Running `backward` on such a graph then raises
`ValueError` at `parent_plates.index(plate)` before the estimator is ever
invoked, and the registry is left unchanged. -/
theorem backward_reduces_original_cost_bug :
    (reducedCostLoop cT2 []).plates = [aP] ∧
    aP ∈ (reducedCostLoop cT2 []).multi_dim_plates ∧
    (backward gC2 [0] false).ret = .error "ValueError: x is not in list" ∧
    (backward gC2 [0] false).estimCalls = [] ∧
    (backward gC2 [0] false).completed = false ∧
    (backward gC2 [0] false).registry = [0] :=
  ⟨rfl, by decide, rfl, rfl, rfl, rfl⟩

/-! ### C3 -/

/-- C3 counterexample: applying `denote_independent` twice with plate
name `"p"` to the node named `"x"` derives `"x_indep_p"` the first time
and `"x_indep_p_indep_p"` the second time: the derived names differ, so
the naming is not idempotent. -/
theorem denote_independent_not_idempotent_cex :
    ((denote_independent gName (.inr 0) 0 "p" false 0).map
        (fun r => (r.1.node r.2).name) = .ok (some "x_indep_p")) ∧
    ((denote_independent gName1.1 (.inr gName1.2) 0 "p" false 0).map
        (fun r => (r.1.node r.2).name) = .ok (some "x_indep_p_indep_p")) ∧
    some "x_indep_p_indep_p" ≠ some "x_indep_p" :=
  ⟨rfl, rfl, by decide⟩

/-- C3 amended: `denote_independent` naming is not idempotent — whenever
the first derived name is non-empty (the input node is truthily named or
the plate name is non-empty), a second call with the same plate name
extends the first derived name by a further `"_indep_" ++ plate_name`
concatenation, hence derives a different name. -/
theorem denote_independent_second_call_extends (g : Graph) (i dim dim' : Nat)
    (p : String)
    (h : pyTruthy (g.node i).name = true ∨ p ≠ "") :
    ∀ g1 j g2 k,
      denote_independent g (.inr i) dim p false 0 = .ok (g1, j) →
      denote_independent g1 (.inr j) dim' p false 0 = .ok (g2, k) →
      ∃ s, (g1.node j).name = some s ∧
        (g2.node k).name = some (s ++ "_indep_" ++ p) ∧
        some (s ++ "_indep_" ++ p) ≠ some s := by
  intro g1 j g2 k h1 h2
  unfold denote_independent at h1 h2
  simp only [Bool.or_self, decide_eq_true_eq, Nat.lt_irrefl,
    Bool.or_false, Bool.false_or, if_false, ite_false, reduceIte] at h1 h2
  injection h1 with h1'
  injection h2 with h2'
  have e1 := congrArg Prod.fst h1'
  have e2 := congrArg Prod.snd h1'
  have e3 := congrArg Prod.fst h2'
  have e4 := congrArg Prod.snd h2'
  simp only at e1 e2 e3 e4
  set nm₁ := (if pyTruthy (g.node i).name = true then
      (g.node i).name.getD "" ++ "_indep_" ++ p else p) with hnm
  have hn1 : (g1.node j).name = some nm₁ := by
    rw [← e1, ← e2]; exact IndependentTensor_name ..
  have hne : nm₁ ≠ "" := by
    rw [hnm]
    by_cases ht : pyTruthy (g.node i).name = true
    · simp only [ht, if_true]; exact append_indep_ne_empty _ _
    · simp only [ht, if_false]
      rcases h with h | h
      · exact absurd h ht
      · exact h
  have base : (g2.node k).name =
      some (if pyTruthy (g1.node j).name = true then
              (g1.node j).name.getD "" ++ "_indep_" ++ p
            else p) := by
    rw [← e3, ← e4]; exact IndependentTensor_name ..
  rw [hn1] at base
  simp only [pyTruthy, hne, decide_not, Option.getD_some, ne_eq,
    decide_eq_true_eq, Bool.not_eq_true', decide_eq_false_iff_not,
    not_false_eq_true, if_true] at base
  refine ⟨nm₁, hn1, ?_, fun hc => ?_⟩
  · simpa [hne] using base
  · exact append_indep_ne _ p (Option.some.inj hc)

/-! ### C5 -/

/-- C5: `add_cost` raises a value error if and only if the cost's event
shape is non-empty or the name is empty/`None`; when both preconditions
hold it returns a Cost node without raising. -/
theorem add_cost_value_error_iff (g : Graph) (cost : Nat)
    (name : Option String) (ge : Bool) (reg : List Nat) :
    ((add_cost g cost name ge reg).isOk = true ↔
      ((g.node cost).eventShape = [] ∧ pyTruthy name = true)) ∧
    (∀ g' nid reg', add_cost g cost name ge reg = .ok (g', nid, reg') →
      (g'.node nid).kind = .cost) := by
  constructor
  · unfold add_cost
    split_ifs with h1 h2 hge
    · refine iff_of_false (by simp [Except.isOk, Except.toBool]) ?_
      exact fun hc => h1 hc.1
    · refine iff_of_false (by simp [Except.isOk, Except.toBool]) ?_
      intro hc
      rw [hc.2] at h2
      simp at h2
    · exact iff_of_true (by simp [Except.isOk, Except.toBool])
        ⟨not_not.mp h1, by simpa using h2⟩
    · exact iff_of_true (by simp [Except.isOk, Except.toBool])
        ⟨not_not.mp h1, by simpa using h2⟩
  · intro g' nid reg' h
    unfold add_cost at h
    split_ifs at h with h1 h2 hge
    all_goals
      injection h with h'
      have e1 := congrArg Prod.fst h'
      have e2 := congrArg (fun r => r.2.1) h'
      simp only at e1 e2
      rw [← e1, ← e2]
      by_cases hc : g.size = cost <;>
        simp [Graph.push, Graph.setNode, hc]

/-- C5 witness: a scalar-per-batch cost with a non-empty name registers
without raising. -/
theorem add_cost_value_error_iff_witness :
    ((gB.node 0).eventShape = [] ∧ pyTruthy (some "c") = true) ∧
    (add_cost gB 0 (some "c") true []).isOk = true :=
  ⟨by decide, (add_cost_value_error_iff gB 0 (some "c") true []).1.mpr
      (by decide)⟩

/-! ### C7 -/

/-- C7: `BatchAverageBaseline.compute_baseline` raises a value error
exactly when the sample count is 1; for any other sample count (in
particular every `n > 1`) it returns without raising. -/
theorem compute_baseline_raises_iff (n : Nat) (costs : List Rat) :
    (BatchAverageBaseline.compute_baseline n costs).isOk = true ↔ n ≠ 1 := by
  unfold BatchAverageBaseline.compute_baseline
  split_ifs with h
  · simp [Except.isOk, Except.toBool, h]
  · simp [Except.isOk, Except.toBool, h]

/-- C7 witness: two samples are accepted, a single sample raises. -/
theorem compute_baseline_raises_iff_witness :
    ((2 : Nat) ≠ 1) ∧
    (BatchAverageBaseline.compute_baseline 2 [3, 4]).isOk = true ∧
    (BatchAverageBaseline.compute_baseline 1 [3, 4]).isOk = false := by
  refine ⟨by decide, (compute_baseline_raises_iff 2 [3, 4]).mpr (by decide), ?_⟩
  have h := compute_baseline_raises_iff 1 [3, 4]
  simp only [ne_eq, not_true_eq_false, iff_false, Bool.not_eq_true] at h
  exact h

/-! ### C4 -/

/-- C4: a `backward` call that returns normally with
`retain_graph = False` leaves the registry empty; `reset` always empties
the registry and is idempotent (hence safe on an already-empty
registry); `backward` with `retain_graph = True` leaves the registry
unchanged. -/
theorem backward_clears_registry :
    (∀ (g : Graph) (reg : List Nat),
        (backward g reg false).ret.isOk = true →
        (backward g reg false).registry = []) ∧
    (∀ reg : List Nat, reset reg = []) ∧
    (∀ reg : List Nat, reset (reset reg) = reset reg) ∧
    (∀ (g : Graph) (reg : List Nat), (backward g reg true).registry = reg) := by
  refine ⟨?_, fun _ => rfl, fun _ => rfl, ?_⟩
  · intro g reg h
    unfold backward at h ⊢
    rcases hrc : runCosts reg ⟨g, .float 0, .float 0, [], [], []⟩ with ⟨st, e⟩
    simp only [hrc] at h ⊢
    cases e
    · rfl
    · simp [Except.isOk, Except.toBool] at h
  · intro g reg
    unfold backward
    rcases hrc : runCosts reg ⟨g, .float 0, .float 0, [], [], []⟩ with ⟨st, e⟩
    simp only [hrc]
    cases e <;> rfl

/-- C4 witness: on the chain graph the call completes, the registry is
cleared, `reset` empties any registry, and a retained call keeps it. -/
theorem backward_clears_registry_witness :
    (backward gB [0] false).ret.isOk = true ∧
    (backward gB [0] false).registry = [] ∧
    reset [7] = [] ∧
    (backward gB [0] true).registry = [0] :=
  ⟨by rfl, backward_clears_registry.1 gB [0] (by rfl),
   backward_clears_registry.2.1 [7],
   backward_clears_registry.2.2.2 gB [0]⟩

/-- C3 amended witness: on the concrete node named `"x"` the second call
extends the first derived name by `"_indep_p"`. -/
theorem denote_independent_second_call_extends_witness :
    (pyTruthy (gName.node 0).name = true ∨ "p" ≠ "") ∧
    (∃ s, (gName1.1.node gName1.2).name = some s ∧
      (gName2.1.node gName2.2).name = some (s ++ "_indep_" ++ "p") ∧
      some (s ++ "_indep_" ++ "p") ≠ some s) :=
  ⟨.inl (by decide),
   denote_independent_second_call_extends gName 0 0 0 "p" (.inl (by decide))
     gName1.1 gName1.2 gName2.1 gName2.2 (by rfl) (by rfl)⟩

/-! ### C10 -/

/-- The frontier loop only ever writes the locals `l`, `s`, `edges`: the
threaded heap comes back exactly as it went in. -/
theorem topoLoop_graph (g : Graph) :
    ∀ (fuel : Nat) (l s : List Nat) (em : EMap),
      (topoLoop g fuel l s em).2 = g := by
  intro fuel
  induction fuel with
  | zero => intro l s em; rfl
  | succ m ih =>
      intro l s em
      unfold topoLoop
      cases hgl : s.getLast? with
      | none => rfl
      | some n =>
          dsimp only
          cases htp : topoParents g n (g.node n).parents s.dropLast em with
          | error e => simp only [htp]
          | ok pr =>
              obtain ⟨s', em'⟩ := pr
              simp only [htp]
              exact ih (l ++ [n]) s' em'

/-- C10: `topological_sort` does not mutate the graph: every node's
`_parents` and `_children` (and every other heap field) are exactly as
before the call, the algorithm operating on a copy of the input list
(`costs.copy()`, util.py line 118) and on freshly built per-parent child
lists (`list(map(...))`, util.py line 127). -/
theorem topological_sort_no_mutation (g : Graph) (costs : List Nat) :
    (topological_sort g costs).2 = g := by
  unfold topological_sort
  split_ifs
  · exact topoLoop_graph g (g.size + 1) [] costs _
  · rfl

/-! ### Reachability lemmas -/

/-- Reachable nodes are in range. -/
theorem reach_lt {g : Graph} {costs : List Nat} {rank : Nat → Nat}
    (hv : TopoValid g costs rank) :
    ∀ {x : Nat}, Reach g costs x → x < g.size := by
  intro x hx
  induction hx with
  | base hc => exact hv.costs_lt _ hc
  | step _ hp ih => exact hv.par_lt _ ih _ hp

/-- A reachable node with no children is one of the input costs. -/
theorem reach_sink_mem {g : Graph} {costs : List Nat} {rank : Nat → Nat}
    (hv : TopoValid g costs rank) :
    ∀ {x : Nat}, Reach g costs x → childIds g x = [] → x ∈ costs := by
  intro x hx
  induction hx with
  | base hc => exact fun _ => hc
  | step ha hp ih =>
      rename_i a p
      intro hchi
      have hpa : p ∈ parentIds g a ↔ a ∈ childIds g p :=
        hv.symm a (reach_lt hv ha) p (reach_lt hv (.step ha hp))
      rw [hpa] at hp
      rw [hchi] at hp
      cases hp

/-! ### List filter helpers -/

/-- Removing one more popped node from a remaining-children filter. -/
theorem filter_erase_step (cs l : List Nat) (n : Nat) (hnd : cs.Nodup) :
    ((cs.filter (fun y => decide (y ∉ l))).erase n)
      = cs.filter (fun y => decide (y ∉ l ++ [n])) := by
  have hnd' : (cs.filter (fun y => decide (y ∉ l))).Nodup := hnd.filter _
  rw [hnd'.erase_eq_filter, List.filter_filter]
  apply List.filter_congr
  intro y _
  by_cases h1 : y ∈ l <;> by_cases h2 : y = n <;>
    simp [h1, h2, List.mem_append]

/-- When the popped node is not a child, the remaining-children filter is
unchanged by adding it to the popped list. -/
theorem filter_no_occurrence (cs l : List Nat) (n : Nat) (hn : n ∉ cs) :
    cs.filter (fun y => decide (y ∉ l))
      = cs.filter (fun y => decide (y ∉ l ++ [n])) := by
  apply List.filter_congr
  intro y hy
  have hyn : y ≠ n := fun h => hn (h ▸ hy)
  by_cases h1 : y ∈ l <;> simp [h1, hyn, List.mem_append]

/-! ### The inner parent loop of topological_sort -/

/-- Processing the parents of a popped node `n` never raises when `n` is
in every parent's remaining list, removes one occurrence of `n` from each
parent's remaining list, and appends exactly the parents whose list
empties to the frontier, in order. -/
theorem topoParents_spec (g : Graph) (n : Nat) :
    ∀ (ps : List (Nat × Bool)) (s : List Nat) (em : EMap),
      (ps.map Prod.fst).Nodup →
      (∀ p ∈ ps.map Prod.fst, n ∈ remAt g em p) →
      ∃ s' em', topoParents g n ps s em = .ok (s', em') ∧
        (∀ q, remAt g em' q =
          if q ∈ ps.map Prod.fst then (remAt g em q).erase n
          else remAt g em q) ∧
        s' = s ++ (ps.map Prod.fst).filter
          (fun p => decide ((remAt g em p).erase n = [])) := by
  intro ps
  induction ps with
  | nil =>
      intro s em _ _
      exact ⟨s, em, rfl, fun q => by simp, by simp⟩
  | cons pb rest ih =>
      intro s em hnd hmem
      obtain ⟨p, b⟩ := pb
      have hp : n ∈ remAt g em p := hmem p (by simp)
      have hnd' : (p :: rest.map Prod.fst).Nodup := by simpa using hnd
      have hpnotin : p ∉ rest.map Prod.fst := (List.nodup_cons.mp hnd').1
      have hndr : (rest.map Prod.fst).Nodup := (List.nodup_cons.mp hnd').2
      unfold topoParents
      rw [if_pos hp]
      have hrem1 : ∀ q,
          remAt g (fun q' => if q' = p then some ((remAt g em p).erase n)
                             else em q') q
            = if q = p then (remAt g em p).erase n else remAt g em q := by
        intro q
        unfold remAt
        by_cases hq : q = p <;> simp [hq]
      have hmem' : ∀ q ∈ rest.map Prod.fst,
          n ∈ remAt g (fun q' => if q' = p then some ((remAt g em p).erase n)
                                 else em q') q := by
        intro q hq
        have hqp : q ≠ p := fun h => hpnotin (h ▸ hq)
        rw [hrem1, if_neg hqp]
        exact hmem q (by simp [hq])
      obtain ⟨s', em', heq, hrem, hs⟩ :=
        ih (if (remAt g em p).erase n = [] then s ++ [p] else s)
          (fun q' => if q' = p then some ((remAt g em p).erase n) else em q')
          hndr hmem'
      refine ⟨s', em', heq, ?_, ?_⟩
      · intro q
        rw [hrem q]
        by_cases hq1 : q = p
        · subst hq1
          rw [if_neg hpnotin, hrem1, if_pos rfl,
              if_pos (by simp : q ∈ (⟨q, b⟩ :: rest).map Prod.fst)]
        · rw [hrem1, if_neg hq1]
          by_cases hq2 : q ∈ rest.map Prod.fst <;>
            simp [hq1, hq2]
      · rw [hs]
        have hfr : (rest.map Prod.fst).filter
            (fun q => decide ((remAt g (fun q' => if q' = p then
                some ((remAt g em p).erase n) else em q') q).erase n = []))
              = (rest.map Prod.fst).filter
                (fun q => decide ((remAt g em q).erase n = [])) := by
          apply List.filter_congr
          intro q hq
          have hqp : q ≠ p := fun h => hpnotin (h ▸ hq)
          rw [hrem1, if_neg hqp]
        rw [hfr]
        simp only [List.map_cons, List.filter_cons]
        by_cases hcond : (remAt g em p).erase n = [] <;>
          simp [hcond]

/-- A duplicate-free list of naturals below `N` has at most `N`
elements. -/
theorem nodup_lt_length_le {l : List Nat} {N : Nat} (h : l.Nodup)
    (hlt : ∀ x ∈ l, x < N) : l.length ≤ N := by
  classical
  have hsub : l.toFinset ⊆ Finset.range N := fun x hx =>
    Finset.mem_range.mpr (hlt x (List.mem_toFinset.mp hx))
  have hcard := Finset.card_le_card hsub
  rw [List.toFinset_card_of_nodup h] at hcard
  simpa using hcard

/-- One iteration of the frontier loop preserves the invariant: popping
the last frontier element `n` and processing its parents succeeds and
re-establishes `TopoInv` with `n` appended to the output. -/
theorem topoInv_step {g : Graph} {costs : List Nat} {rank : Nat → Nat}
    (hv : TopoValid g costs rank) {l s : List Nat} {em : EMap} {n : Nat}
    (inv : TopoInv g costs l s em) (hlast : s.getLast? = some n) :
    ∃ s' em',
      topoParents g n (g.node n).parents s.dropLast em = .ok (s', em') ∧
      TopoInv g costs (l ++ [n]) s' em' := by
  have hsplit : s.dropLast ++ [n] = s := List.dropLast_append_getLast? n hlast
  have hns : n ∈ s := by rw [← hsplit]; simp
  have hreach_n : Reach g costs n := inv.rs n hns
  have hnlt : n < g.size := reach_lt hv hreach_n
  have hnl : n ∉ l := inv.disj n hns
  have hnd_keys : (parentIds g n).Nodup := hv.par_nodup n hnlt
  have hmem_keys : ∀ p ∈ parentIds g n, n ∈ remAt g em p := by
    intro p hp
    have hplt : p < g.size := hv.par_lt n hnlt p hp
    have hchild : n ∈ childIds g p := (hv.symm n hnlt p hplt).mp hp
    rw [inv.rem_eq p hplt]
    rw [List.mem_filter]
    exact ⟨hchild, by simpa using hnl⟩
  obtain ⟨s', em', heq, hrem, hs⟩ :=
    topoParents_spec g n (g.node n).parents s.dropLast em hnd_keys hmem_keys
  have hkeys : List.map Prod.fst (g.node n).parents = parentIds g n := rfl
  rw [hkeys] at hs
  simp only [hkeys] at hrem
  have hnddrop : s.dropLast.Nodup := inv.ns.sublist (List.dropLast_sublist s)
  have hn_not_drop : n ∉ s.dropLast := by
    have hnd2 : (s.dropLast ++ [n]).Nodup := by rw [hsplit]; exact inv.ns
    have := (List.nodup_append.mp hnd2).2.2
    intro hmem
    exact this hmem (by simp)
  have hrem_eq' : ∀ p, p < g.size →
      remAt g em' p = (childIds g p).filter (fun y => decide (y ∉ l ++ [n])) := by
    intro p hplt
    rw [hrem p]
    by_cases hp : p ∈ parentIds g n
    · rw [if_pos hp, inv.rem_eq p hplt,
        filter_erase_step _ _ _ (hv.chi_nodup p hplt)]
    · rw [if_neg hp, inv.rem_eq p hplt]
      apply filter_no_occurrence
      intro hn_in_chi
      exact hp ((hv.symm n hnlt p hplt).mpr hn_in_chi)
  have happ : ∀ p, p ∈ (parentIds g n).filter
      (fun q => decide ((remAt g em q).erase n = [])) ↔
      (p ∈ parentIds g n ∧ ∀ y ∈ childIds g p, y ∈ l ++ [n]) := by
    intro p
    constructor
    · intro hp
      have hp1 : p ∈ parentIds g n := (List.mem_filter.mp hp).1
      have hp2 : (remAt g em p).erase n = [] := by
        simpa using (List.mem_filter.mp hp).2
      have hplt : p < g.size := hv.par_lt n hnlt p hp1
      rw [inv.rem_eq p hplt,
        filter_erase_step _ _ _ (hv.chi_nodup p hplt)] at hp2
      refine ⟨hp1, fun y hy => ?_⟩
      by_contra hyl
      have hyf : y ∈ (childIds g p).filter
          (fun y => decide (y ∉ l ++ [n])) := by
        rw [List.mem_filter]
        exact ⟨hy, by simpa using hyl⟩
      rw [hp2] at hyf
      cases hyf
    · rintro ⟨hp1, hp2⟩
      have hplt : p < g.size := hv.par_lt n hnlt p hp1
      rw [List.mem_filter]
      refine ⟨hp1, ?_⟩
      rw [inv.rem_eq p hplt,
        filter_erase_step _ _ _ (hv.chi_nodup p hplt)]
      simp only [decide_eq_true_eq]
      apply List.filter_eq_nil_iff.mpr
      intro y hy
      have hmem := hp2 y hy
      simp only [List.mem_append, List.mem_singleton] at hmem
      simp only [decide_eq_true_eq, List.mem_append, List.mem_singleton]
      tauto
  have happ_l : ∀ p ∈ (parentIds g n).filter
      (fun q => decide ((remAt g em q).erase n = [])), p ∉ l := by
    intro p hp hpl
    have hp1 : p ∈ parentIds g n := (List.mem_filter.mp hp).1
    have hplt : p < g.size := hv.par_lt n hnlt p hp1
    have hchild : n ∈ childIds g p := (hv.symm n hnlt p hplt).mp hp1
    obtain ⟨l₁, l₂, hle, hnin⟩ := inv.ord p hpl n hchild
    have hnin' : n ∈ l := by
      rw [hle]
      exact List.mem_append.mpr (.inl hnin)
    exact hnl hnin' 
  have happ_ne : ∀ p ∈ (parentIds g n).filter
      (fun q => decide ((remAt g em q).erase n = [])), p ≠ n := by
    intro p hp hpn
    subst hpn
    have hp1 : p ∈ parentIds g p := (List.mem_filter.mp hp).1
    have hchild : p ∈ childIds g p := (hv.symm p hnlt p hnlt).mp hp1
    exact absurd (hv.rank_lt p hnlt p hchild) (lt_irrefl _)
  have happ_drop : ∀ p ∈ (parentIds g n).filter
      (fun q => decide ((remAt g em q).erase n = [])), p ∉ s.dropLast := by
    intro p hp hpd
    have hps : p ∈ s := by
      rw [← hsplit]; exact List.mem_append.mpr (.inl hpd)
    obtain ⟨_, _, hchi_l⟩ := (inv.s_char p).mp hps
    have hp1 : p ∈ parentIds g n := (List.mem_filter.mp hp).1
    have hplt : p < g.size := hv.par_lt n hnlt p hp1
    have hchild : n ∈ childIds g p := (hv.symm n hnlt p hplt).mp hp1
    exact hnl (hchi_l n hchild)
  refine ⟨s', em', heq, ?_⟩
  constructor
  · rw [List.nodup_append]
    refine ⟨inv.nl, List.nodup_singleton n, ?_⟩
    intro a ha hb
    rw [List.mem_singleton] at hb
    subst hb
    exact hnl ha
  · rw [hs, List.nodup_append]
    refine ⟨hnddrop, hnd_keys.filter _, ?_⟩
    intro a ha hb
    exact happ_drop a hb ha
  · intro x hx
    rw [hs] at hx
    rcases List.mem_append.mp hx with hx | hx
    · have hxs : x ∈ s := by
        rw [← hsplit]; exact List.mem_append.mpr (.inl hx)
      have hxl : x ∉ l := inv.disj x hxs
      have hxn : x ≠ n := fun h => hn_not_drop (h ▸ hx)
      intro hcon
      rcases List.mem_append.mp hcon with hc | hc
      · exact hxl hc
      · exact hxn (List.mem_singleton.mp hc)
    · intro hcon
      rcases List.mem_append.mp hcon with hc | hc
      · exact happ_l x hx hc
      · exact happ_ne x hx (List.mem_singleton.mp hc)
  · intro x hx
    rcases List.mem_append.mp hx with hx | hx
    · exact inv.rl x hx
    · rw [List.mem_singleton.mp hx]; exact hreach_n
  · intro x hx
    rw [hs] at hx
    rcases List.mem_append.mp hx with hx | hx
    · exact inv.rs x (by rw [← hsplit]; exact List.mem_append.mpr (.inl hx))
    · exact .step hreach_n (List.mem_filter.mp hx).1
  · exact hrem_eq'
  · intro x
    rw [hs]
    constructor
    · intro hx
      rcases List.mem_append.mp hx with hx | hx
      · have hxs : x ∈ s := by
          rw [← hsplit]; exact List.mem_append.mpr (.inl hx)
        obtain ⟨hr, hxl, hchi⟩ := (inv.s_char x).mp hxs
        have hxn : x ≠ n := fun h => hn_not_drop (h ▸ hx)
        refine ⟨hr, ?_, fun y hy => List.mem_append.mpr (.inl (hchi y hy))⟩
        intro hcon
        rcases List.mem_append.mp hcon with hc | hc
        · exact hxl hc
        · exact hxn (List.mem_singleton.mp hc)
      · have hp1 := (List.mem_filter.mp hx).1
        refine ⟨.step hreach_n hp1, ?_, (happ x).mp hx |>.2⟩
        intro hcon
        rcases List.mem_append.mp hcon with hc | hc
        · exact happ_l x hx hc
        · exact happ_ne x hx (List.mem_singleton.mp hc)
    · rintro ⟨hr, hxl', hchi⟩
      by_cases hnc : n ∈ childIds g x
      · have hxlt : x < g.size := reach_lt hv hr
        have hx_par : x ∈ parentIds g n := (hv.symm n hnlt x hxlt).mpr hnc
        exact List.mem_append.mpr (.inr ((happ x).mpr ⟨hx_par, hchi⟩))
      · have hchi_l : ∀ y ∈ childIds g x, y ∈ l := by
          intro y hy
          rcases List.mem_append.mp (hchi y hy) with hc | hc
          · exact hc
          · exact absurd (List.mem_singleton.mp hc ▸ hy) hnc
        have hxl : x ∉ l := fun h => hxl' (List.mem_append.mpr (.inl h))
        have hxs : x ∈ s := (inv.s_char x).mpr ⟨hr, hxl, hchi_l⟩
        have hxn : x ≠ n := fun h =>
          hxl' (List.mem_append.mpr (.inr (by rw [h]; exact List.mem_singleton.mpr rfl)))
        rw [← hsplit] at hxs
        rcases List.mem_append.mp hxs with hc | hc
        · exact List.mem_append.mpr (.inl hc)
        · exact absurd (List.mem_singleton.mp hc) hxn
  · intro x hx y hy
    rcases List.mem_append.mp hx with hx | hx
    · obtain ⟨l₁, l₂, hle, hy1⟩ := inv.ord x hx y hy
      exact ⟨l₁, l₂ ++ [n], by rw [hle]; simp, hy1⟩
    · rw [List.mem_singleton.mp hx] at hy ⊢
      obtain ⟨_, _, hchi⟩ := (inv.s_char n).mp hns
      exact ⟨l, [], rfl, hchi y hy⟩

/-- The frontier loop with fuel `g.size + 1` runs to completion from any
invariant state and re-establishes the invariant with an empty
frontier. -/
theorem topoLoop_ok {g : Graph} {costs : List Nat} {rank : Nat → Nat}
    (hv : TopoValid g costs rank) :
    ∀ (fuel : Nat) (l s : List Nat) (em : EMap),
      TopoInv g costs l s em →
      g.size + 1 ≤ fuel + l.length →
      ∃ lf emf, topoLoop g fuel l s em = (.ok lf, g) ∧
        TopoInv g costs lf [] emf := by
  intro fuel
  induction fuel with
  | zero =>
      intro l s em inv hfuel
      exfalso
      have hlen : l.length ≤ g.size :=
        nodup_lt_length_le inv.nl (fun x hx => reach_lt hv (inv.rl x hx))
      omega
  | succ m ih =>
      intro l s em inv hfuel
      unfold topoLoop
      cases hgl : s.getLast? with
      | none =>
          have hs0 : s = [] := by
            cases s with
            | nil => rfl
            | cons a t => simp at hgl
          subst hs0
          exact ⟨l, em, rfl, inv⟩
      | some n =>
          dsimp only
          obtain ⟨s', em', heq, inv'⟩ := topoInv_step hv inv hgl
          rw [heq]
          apply ih (l ++ [n]) s' em' inv'
          simp only [List.length_append, List.length_singleton]
          omega

/-- The invariant holds at loop entry. -/
theorem topoInv_init {g : Graph} {costs : List Nat} {rank : Nat → Nat}
    (hv : TopoValid g costs rank) :
    TopoInv g costs [] costs (fun _ => none) := by
  constructor
  · exact List.nodup_nil
  · exact hv.costs_nodup
  · intro x _
    exact List.not_mem_nil x
  · intro x hx
    cases hx
  · intro x hx
    exact .base hx
  · intro p _
    unfold remAt
    simp
  · intro x
    constructor
    · intro hx
      refine ⟨.base hx, List.not_mem_nil x, ?_⟩
      intro y hy
      have hsink := hv.costs_sink x hx
      unfold childIds at hy
      rw [hsink] at hy
      cases hy
    · rintro ⟨hr, -, hchi⟩
      have hch : childIds g x = [] := by
        cases hcx : childIds g x with
        | nil => rfl
        | cons a t =>
            exact absurd (hchi a (by rw [hcx]; simp)) (List.not_mem_nil a)
      exact reach_sink_mem hv hr hch
  · intro x hx
    cases hx

/-- When the frontier has drained, every reachable node has been
output (strong induction on the acyclicity rank, using closure of the
reachable set under child edges). -/
theorem topoInv_final_complete {g : Graph} {costs : List Nat}
    {rank : Nat → Nat} (hv : TopoValid g costs rank)
    {l : List Nat} {em : EMap} (inv : TopoInv g costs l [] em) :
    ∀ x, Reach g costs x → x ∈ l := by
  have main : ∀ k x, rank x ≤ k → Reach g costs x → x ∈ l := by
    intro k
    induction k with
    | zero =>
        intro x hrk hr
        by_contra hxl
        have hchi : ∀ y ∈ childIds g x, y ∈ l := by
          intro y hy
          have := hv.rank_lt x (reach_lt hv hr) y hy
          omega
        exact absurd ((inv.s_char x).mpr ⟨hr, hxl, hchi⟩)
          (List.not_mem_nil x)
    | succ k ihk =>
        intro x hrk hr
        by_contra hxl
        have hchi : ∀ y ∈ childIds g x, y ∈ l := by
          intro y hy
          have hry : rank y < rank x := hv.rank_lt x (reach_lt hv hr) y hy
          exact ihk y (by omega) (hv.closed x hr y hy)
        exact absurd ((inv.s_char x).mpr ⟨hr, hxl, hchi⟩)
          (List.not_mem_nil x)
  intro x hr
  exact main (rank x) x le_rfl hr

/-! ### C6 -/

/-- C6 counterexample: `gCex` is a valid input — cost 0 is a sink, edges
are symmetric, duplicate-free, in range, and the graph is acyclic (rank
1 for the stochastic node, 0 elsewhere) — yet `topological_sort` returns
`[0]` only: the stochastic node 1 is reachable from the cost but never
appears, because its second child (the deterministic sink 2) is never
popped, so node 1's live-children count never reaches zero. -/
theorem topological_sort_misses_reachable_cex :
    (topological_sort gCex [0]).1 = .ok [0] ∧
    Reach gCex [0] 1 ∧
    (1 : Nat) ∉ ([0] : List Nat) ∧
    (∀ c ∈ ([0] : List Nat), c < gCex.size ∧
      (gCex.node c).kind = .cost ∧ (gCex.node c).children = []) ∧
    (∀ x, x < gCex.size → ∀ y, y < gCex.size →
      (y ∈ parentIds gCex x ↔ x ∈ childIds gCex y)) ∧
    (∀ x, x < gCex.size → (parentIds gCex x).Nodup ∧
      (childIds gCex x).Nodup ∧ ∀ y ∈ parentIds gCex x, y < gCex.size) ∧
    (∀ x, x < gCex.size → ∀ y ∈ childIds gCex x,
      (if y = 1 then 1 else 0) < (if x = 1 then (1 : Nat) else 0)) :=
  ⟨rfl, @Reach.step gCex [0] 0 1 (Reach.base (by decide)) (by decide),
   by decide, by decide, by decide, by decide, by decide⟩

/-- C6 amended: for every valid input — distinct cost-node sinks over a
finite acyclic graph with in-range, duplicate-free, symmetric
parent/child edges whose reachable set is closed under child edges —
`topological_sort` returns a linear order in which every node appears
after all of its children, and every reachable node appears exactly
once. -/
theorem topological_sort_spec (g : Graph) (costs : List Nat)
    (rank : Nat → Nat) (hv : TopoValid g costs rank) :
    ∃ l, (topological_sort g costs).1 = .ok l ∧
      (∀ x, x ∈ l ↔ Reach g costs x) ∧
      l.Nodup ∧
      (∀ x, Reach g costs x → l.count x = 1) ∧
      (∀ x ∈ l, ∀ y ∈ childIds g x, Before l y x) := by
  obtain ⟨lf, emf, heq, invf⟩ :=
    topoLoop_ok hv (g.size + 1) [] costs (fun _ => none)
      (topoInv_init hv) (by simp)
  have hcheck : costs.all (fun c =>
      decide ((g.node c).kind = .cost ∧ (g.node c).children = [])) = true := by
    rw [List.all_eq_true]
    intro c hc
    simp [hv.costs_cost c hc, hv.costs_sink c hc]
  refine ⟨lf, ?_, ?_, invf.nl, ?_, invf.ord⟩
  · unfold topological_sort
    rw [if_pos hcheck, heq]
  · intro x
    exact ⟨fun hx => invf.rl x hx,
      fun hr => topoInv_final_complete hv invf x hr⟩
  · intro x hr
    exact List.count_eq_one_of_mem invf.nl
      (topoInv_final_complete hv invf x hr)

/-- C6 witness: the diamond graph satisfies all validity hypotheses, the
theorem applies, and concretely the order is `[1, 0, 2]`: the stochastic
node 2 appears after both costs, exactly once. -/
theorem topological_sort_spec_witness :
    (∃ l, (topological_sort gDiamond [0, 1]).1 = .ok l ∧
      (∀ x, x ∈ l ↔ Reach gDiamond [0, 1] x) ∧
      l.Nodup ∧
      (∀ x, Reach gDiamond [0, 1] x → l.count x = 1) ∧
      (∀ x ∈ l, ∀ y ∈ childIds gDiamond x, Before l y x)) ∧
    (topological_sort gDiamond [0, 1]).1 = .ok [1, 0, 2] := by
  refine ⟨topological_sort_spec gDiamond [0, 1]
      (fun x => if x = 2 then 1 else 0) ?_, rfl⟩
  have hrange : ∀ x, Reach gDiamond [0, 1] x → x = 0 ∨ x = 1 ∨ x = 2 := by
    intro x hx
    induction hx with
    | base hc =>
        simp only [List.mem_cons, List.mem_singleton] at hc
        rcases hc with rfl | hc
        · left; rfl
        · right; left; simpa using hc
    | step ha hp ih =>
        rcases ih with rfl | rfl | rfl
        · have h0 : parentIds gDiamond 0 = [2] := rfl
          rw [h0] at hp
          right; right; simpa using hp
        · have h1 : parentIds gDiamond 1 = [2] := rfl
          rw [h1] at hp
          right; right; simpa using hp
        · have h2 : parentIds gDiamond 2 = [] := rfl
          rw [h2] at hp
          cases hp
  refine ⟨by decide, by decide, by decide, by decide, by decide, by decide,
    by decide, by decide, by decide, ?_⟩
  intro x hx y hy
  rcases hrange x hx with rfl | rfl | rfl
  · have h0 : childIds gDiamond 0 = [] := rfl
    rw [h0] at hy
    cases hy
  · have h1 : childIds gDiamond 1 = [] := rfl
    rw [h1] at hy
    cases hy
  · have h2 : childIds gDiamond 2 = [0, 1] := rfl
    rw [h2] at hy
    simp only [List.mem_cons, List.not_mem_nil, or_false,
      List.mem_singleton] at hy
    rcases hy with rfl | rfl
    · exact .base (by simp)
    · exact .base (by simp)

/-! ### Heap-operation lemmas for backward -/

/-- Node lookup after `setNode`. -/
theorem setNode_node (g : Graph) (i : Nat) (d : NodeData) (j : Nat) :
    (g.setNode i d).node j = if j = i then d else g.node j := rfl

/-- Node lookup after `push`. -/
theorem push_node (g : Graph) (d : NodeData) (j : Nat) :
    (g.push d).node j = if j = g.size then d else g.node j := rfl

/-- `SameNonChild` is reflexive. -/
theorem sameNonChild_refl (a : NodeData) : SameNonChild a a :=
  ⟨rfl, rfl, rfl, rfl, rfl, rfl, rfl, rfl, rfl⟩

/-- `SameNonChild` is transitive. -/
theorem sameNonChild_trans {a b c : NodeData}
    (h1 : SameNonChild a b) (h2 : SameNonChild b c) : SameNonChild a c := by
  obtain ⟨k1, t1, p1, q1, n1, r1, s1, m1, d1⟩ := h1
  obtain ⟨k2, t2, p2, q2, n2, r2, s2, m2, d2⟩ := h2
  exact ⟨k1.trans k2, t1.trans t2, p1.trans p2, q1.trans q2, n1.trans n2,
    r1.trans r2, s1.trans s2, m1.trans m2, d1.trans d2⟩

/-- A record update that only changes `children` is `SameNonChild`. -/
theorem sameNonChild_childupdate (e : NodeData) (cs : List (Nat × Bool)) :
    SameNonChild { e with children := cs } e :=
  ⟨rfl, rfl, rfl, rfl, rfl, rfl, rfl, rfl, rfl⟩

/-- Effect of the child-append fold of the graph splice on every node:
graph-level fields unchanged, non-children node fields unchanged, and
each node's child list extended by one `(newId, flag)` entry per
occurrence of the node among the processed parents, in order. -/
theorem foldl_childapp (newId : Nat) :
    ∀ (ps : List (Nat × Bool)) (h : Graph) (q : Nat),
      (ps.foldl
        (fun g pb =>
          g.setNode pb.1
            (let e := g.node pb.1
             { e with children := e.children ++ [(newId, pb.2)] }))
        h).size = h.size ∧
      (ps.foldl
        (fun g pb =>
          g.setNode pb.1
            (let e := g.node pb.1
             { e with children := e.children ++ [(newId, pb.2)] }))
        h).addsLoss = h.addsLoss ∧
      (ps.foldl
        (fun g pb =>
          g.setNode pb.1
            (let e := g.node pb.1
             { e with children := e.children ++ [(newId, pb.2)] }))
        h).estimate = h.estimate ∧
      (ps.foldl
        (fun g pb =>
          g.setNode pb.1
            (let e := g.node pb.1
             { e with children := e.children ++ [(newId, pb.2)] }))
        h).edgeDiff = h.edgeDiff ∧
      SameNonChild
        ((ps.foldl
          (fun g pb =>
            g.setNode pb.1
              (let e := g.node pb.1
               { e with children := e.children ++ [(newId, pb.2)] }))
          h).node q) (h.node q) ∧
      ((ps.foldl
        (fun g pb =>
          g.setNode pb.1
            (let e := g.node pb.1
             { e with children := e.children ++ [(newId, pb.2)] }))
        h).node q).children
          = (h.node q).children ++
            (ps.filter (fun pb => decide (pb.1 = q))).map
              (fun pb => (newId, pb.2)) := by
  intro ps
  induction ps with
  | nil =>
      intro h q
      exact ⟨rfl, rfl, rfl, rfl, sameNonChild_refl _, by simp⟩
  | cons pb rest ih =>
      intro h q
      obtain ⟨p, b⟩ := pb
      rw [List.foldl_cons]
      obtain ⟨hsz, hal, hes, hed, hsnc, hch⟩ :=
        ih (h.setNode p
          (let e := h.node p
           { e with children := e.children ++ [(newId, b)] })) q
      refine ⟨hsz, hal, hes, hed, ?_, ?_⟩
      · refine sameNonChild_trans hsnc ?_
        rw [setNode_node]
        by_cases hq : q = p
        · subst hq
          rw [if_pos rfl]
          exact sameNonChild_childupdate _ _
        · rw [if_neg hq]
          exact sameNonChild_refl _
      · rw [hch, setNode_node]
        by_cases hq : q = p
        · subst hq
          rw [if_pos rfl]
          simp [List.filter_cons]
        · rw [if_neg hq]
          have : ¬ ((p, b).1 = q) := fun hc => hq hc.symm
          simp [List.filter_cons, this]

/-- Effect of the graph splice on the heap: size grows by one, the
strategy interface is untouched, every pre-existing node keeps its
non-children fields, child lists of pre-existing nodes are only ever
extended with edges to the transient node, and the transient node
carries the ancestor's parent list. -/
theorem spliceTransient_spec (h : Graph) (parent : Nat) (nd : NodeData) :
    (spliceTransient h parent nd).size = h.size + 1 ∧
    (spliceTransient h parent nd).addsLoss = h.addsLoss ∧
    (spliceTransient h parent nd).estimate = h.estimate ∧
    (spliceTransient h parent nd).edgeDiff = h.edgeDiff ∧
    (∀ i, i < h.size →
      SameNonChild ((spliceTransient h parent nd).node i) (h.node i)) ∧
    (∀ i, i < h.size → ∃ ext,
      ((spliceTransient h parent nd).node i).children
        = (h.node i).children ++ ext ∧ ∀ e ∈ ext, e.1 = h.size) ∧
    ((spliceTransient h parent nd).node h.size).parents
      = (h.node parent).parents := by
  have H := fun q => foldl_childapp h.size (h.node parent).parents
    ((h.push nd).setNode h.size { nd with parents := (h.node parent).parents }) q
  have hbase_node : ∀ j,
      (((h.push nd).setNode h.size
        { nd with parents := (h.node parent).parents }).node j)
        = if j = h.size then { nd with parents := (h.node parent).parents }
          else h.node j := by
    intro j
    rw [setNode_node, push_node]
    by_cases hj : j = h.size <;> simp [hj]
  have hsplice : ∀ j, (spliceTransient h parent nd).node j =
      if j = h.size then
        (let e := ((h.node parent).parents.foldl
            (fun g pb =>
              g.setNode pb.1
                (let e := g.node pb.1
                 { e with children := e.children ++ [(h.size, pb.2)] }))
            ((h.push nd).setNode h.size
              { nd with parents := (h.node parent).parents })).node h.size
         { e with children := (((h.node parent).parents.foldl
            (fun g pb =>
              g.setNode pb.1
                (let e := g.node pb.1
                 { e with children := e.children ++ [(h.size, pb.2)] }))
            ((h.push nd).setNode h.size
              { nd with parents := (h.node parent).parents })).node parent).children })
      else ((h.node parent).parents.foldl
            (fun g pb =>
              g.setNode pb.1
                (let e := g.node pb.1
                 { e with children := e.children ++ [(h.size, pb.2)] }))
            ((h.push nd).setNode h.size
              { nd with parents := (h.node parent).parents })).node j := by
    intro j
    unfold spliceTransient
    rw [setNode_node]
  refine ⟨?_, ?_, ?_, ?_, ?_, ?_, ?_⟩
  · show (spliceTransient h parent nd).size = h.size + 1
    unfold spliceTransient
    dsimp only
    exact (H 0).1
  · unfold spliceTransient
    dsimp only
    exact (H 0).2.1
  · unfold spliceTransient
    dsimp only
    exact (H 0).2.2.1
  · unfold spliceTransient
    dsimp only
    exact (H 0).2.2.2.1
  · intro i hi
    have hine : i ≠ h.size := Nat.ne_of_lt hi
    rw [hsplice i, if_neg hine]
    refine sameNonChild_trans (H i).2.2.2.2.1 ?_
    rw [hbase_node i, if_neg hine]
    exact sameNonChild_refl _
  · intro i hi
    have hine : i ≠ h.size := Nat.ne_of_lt hi
    rw [hsplice i, if_neg hine]
    refine ⟨((h.node parent).parents.filter
        (fun pb => decide (pb.1 = i))).map (fun pb => (h.size, pb.2)), ?_, ?_⟩
    · have := (H i).2.2.2.2.2
      rw [hbase_node i, if_neg hine] at this
      exact this
    · intro e he
      obtain ⟨pb, _, rfl⟩ := List.mem_map.mp he
      rfl
  · rw [hsplice h.size, if_pos rfl]
    dsimp only
    obtain ⟨_, _, _, hpar, _⟩ := (H h.size).2.2.2.2.1
    rw [hpar, hbase_node h.size, if_pos rfl]

/-- BFS over parent edges stays within the first `N` nodes when all
parent edges of those nodes do. -/
theorem walkBFS_lt (h : Graph) (N : Nat)
    (hpar : ∀ x, x < N → ∀ y ∈ parentIds h x, y < N) :
    ∀ (fuel : Nat) (q vis : List Nat),
      (∀ x ∈ q, x < N) → (∀ x ∈ vis, x < N) →
      ∀ x ∈ walkBFS h fuel q vis, x < N := by
  intro fuel
  induction fuel with
  | zero =>
      intro q vis _ hvis x hx
      exact hvis x hx
  | succ m ih =>
      intro q vis hq hvis x hx
      cases q with
      | nil => exact hvis x hx
      | cons a t =>
          unfold walkBFS at hx
          by_cases ha : a ∈ vis
          · rw [if_pos ha] at hx
            exact ih t vis (fun y hy => hq y (by simp [hy])) hvis x hx
          · rw [if_neg ha] at hx
            have halt : a < N := hq a (by simp)
            refine ih (t ++ parentIds h a) (vis ++ [a]) ?_ ?_ x hx
            · intro y hy
              rcases List.mem_append.mp hy with hy | hy
              · exact hq y (by simp [hy])
              · exact hpar a halt y hy
            · intro y hy
              rcases List.mem_append.mp hy with hy | hy
              · exact hvis y hy
              · rw [List.mem_singleton.mp hy]; exact halt

/-- `GraphExtends` is reflexive with the empty call trace. -/
theorem graphExtends_refl (g : Graph) : GraphExtends g g [] := by
  constructor
  · simp
  · rfl
  · rfl
  · rfl
  · intro i _; exact sameNonChild_refl _
  · intro i _; exact ⟨[], by simp, by simp⟩
  · intro e he; cases he
  · intro j hj; simp at hj

/-- Splicing one more transient node extends an already-extended heap by
one more estimator call. -/
theorem graphExtends_splice {g h : Graph} {calls : List (Nat × STensor)}
    (hext : GraphExtends g h calls) {parent : Nat} (hplt : parent < g.size)
    (nd : NodeData) (rc : STensor) :
    GraphExtends g (spliceTransient h parent nd) (calls ++ [(parent, rc)]) := by
  obtain ⟨hsz, hal, hes, hed, hpres, hch, htp⟩ := spliceTransient_spec h parent nd
  have hsize_le : g.size ≤ h.size := by rw [hext.size_eq]; omega
  constructor
  · rw [hsz, hext.size_eq]
    simp [List.length_append]
    omega
  · rw [hal, hext.addsLoss_eq]
  · rw [hes, hext.estimate_eq]
  · rw [hed, hext.edgeDiff_eq]
  · intro i hi
    exact sameNonChild_trans (hpres i (lt_of_lt_of_le hi hsize_le))
      (hext.node_pres i hi)
  · intro i hi
    obtain ⟨ext1, hext1, hb1⟩ := hext.children_ext i hi
    obtain ⟨ext2, hext2, hb2⟩ := hch i (lt_of_lt_of_le hi hsize_le)
    refine ⟨ext1 ++ ext2, ?_, ?_⟩
    · rw [hext2, hext1, List.append_assoc]
    · intro e he
      rcases List.mem_append.mp he with he | he
      · exact hb1 e he
      · rw [hb2 e he]; exact hsize_le
  · intro e he
    rcases List.mem_append.mp he with he | he
    · exact hext.calls_lt e he
    · rw [List.mem_singleton.mp he]; exact hplt
  · intro j hj
    rw [List.length_append, List.length_singleton] at hj
    by_cases hjl : j < calls.length
    · have hidx : g.size + j < h.size := by rw [hext.size_eq]; omega
      have hpr := (hpres (g.size + j) hidx).2.2.2.1
      have hgd : (calls ++ [(parent, rc)]).getD j (0, default)
          = calls.getD j (0, default) := List.getD_append _ _ _ _ hjl
      rw [hpr, hext.transient_parents j hjl, hgd]
    · have hj_eq : j = calls.length := by omega
      subst hj_eq
      have hidx : g.size + calls.length = h.size := by
        rw [hext.size_eq]
      have hgd : (calls ++ [(parent, rc)]).getD calls.length (0, default)
          = (parent, rc) := by
        rw [List.getD_eq_getElem?_getD, List.getElem?_append_right (by simp)]
        simp
      rw [hidx, htp, (hext.node_pres parent hplt).2.2.2.1, hgd]

/-- One ancestor-processing step: the heap stays an extension of the
original graph (growing by exactly the new estimator calls), the walk
trace is untouched, and the `stochastic_nodes` set gains the ancestor
exactly when it is stochastic — regardless of whether the ancestor is
skipped for the surrogate loss. -/
theorem parentStep_spec {g : Graph} {st : BState}
    (hext : GraphExtends g st.g st.estimCalls)
    {parent : Nat} (hplt : parent < g.size) (c : Nat) (cT : STensor) :
    GraphExtends g (parentStep c cT st parent).1.g
      (parentStep c cT st parent).1.estimCalls ∧
    (parentStep c cT st parent).1.walks = st.walks ∧
    (parentStep c cT st parent).1.snodes =
      (if (g.node parent).kind = .stoch then pySetAdd st.snodes parent
       else st.snodes) := by
  have hkind : (st.g.node parent).kind = (g.node parent).kind :=
    (hext.node_pres parent hplt).1
  rw [← hkind]
  unfold parentStep
  dsimp only
  split
  · rename_i hk
    split
    · exact ⟨hext, rfl, rfl⟩
    · split
      · exact ⟨hext, rfl, rfl⟩
      · exact ⟨graphExtends_splice hext hplt _ _, rfl, rfl⟩
  · rename_i hk
    split
    · exact ⟨hext, rfl, rfl⟩
    · rename_i hsk
      exact absurd (Or.inl hk) hsk

/-- Membership after a Python set insertion. -/
theorem pySetAdd_mem (s : List Nat) (y x : Nat) :
    x ∈ pySetAdd s y ↔ x ∈ s ∨ x = y := by
  unfold pySetAdd
  split_ifs with h
  · constructor
    · exact fun hx => .inl hx
    · rintro (hx | rfl)
      · exact hx
      · exact h
  · simp

/-- A Python set insertion keeps the backing list duplicate-free. -/
theorem pySetAdd_nodup {s : List Nat} (y : Nat) (h : s.Nodup) :
    (pySetAdd s y).Nodup := by
  unfold pySetAdd
  split_ifs with hy
  · exact h
  · rw [List.nodup_append]
    refine ⟨h, List.nodup_singleton y, ?_⟩
    intro a ha hb
    rw [List.mem_singleton] at hb
    subst hb
    exact hy ha

/-- Running the ancestor loop over a walk: the heap stays an extension
matching the estimator trace, the walk trace is untouched, and on normal
completion the `stochastic_nodes` set has gained exactly the stochastic
walked ancestors. -/
theorem runParents_spec {g : Graph} (c : Nat) (cT : STensor) :
    ∀ (w : List Nat) (st : BState),
      GraphExtends g st.g st.estimCalls →
      (∀ x ∈ w, x < g.size) →
      GraphExtends g (runParents c cT w st).1.g
        (runParents c cT w st).1.estimCalls ∧
      (runParents c cT w st).1.walks = st.walks ∧
      ((runParents c cT w st).2 = none →
        (st.snodes.Nodup → (runParents c cT w st).1.snodes.Nodup) ∧
        (∀ x, x ∈ (runParents c cT w st).1.snodes ↔
          (x ∈ st.snodes ∨ ((g.node x).kind = .stoch ∧ x ∈ w)))) := by
  intro w
  induction w with
  | nil =>
      intro st hext _
      exact ⟨hext, rfl, fun _ => ⟨id, fun x => by simp [runParents]⟩⟩
  | cons p rest ih =>
      intro st hext hw
      have hplt : p < g.size := hw p (by simp)
      obtain ⟨hext', hwalks', hsnodes'⟩ := parentStep_spec hext hplt c cT
      unfold runParents
      rcases hps : parentStep c cT st p with ⟨st', e⟩
      rw [hps] at hext' hwalks' hsnodes'
      cases e with
      | some e =>
          refine ⟨hext', hwalks', fun hc => ?_⟩
          cases hc
      | none =>
          obtain ⟨ihext, ihwalks, ihsn⟩ :=
            ih st' hext' (fun x hx => hw x (by simp [hx]))
          refine ⟨ihext, ihwalks.trans hwalks', fun hdone => ?_⟩
          obtain ⟨ihnd, ihmem⟩ := ihsn hdone
          constructor
          · intro hnd
            apply ihnd
            rw [hsnodes']
            split_ifs with hk
            · exact pySetAdd_nodup p hnd
            · exact hnd
          · intro x
            rw [ihmem x, hsnodes']
            by_cases hk : (g.node p).kind = .stoch
            · rw [if_pos hk, pySetAdd_mem]
              constructor
              · rintro ((hx | rfl) | ⟨hs, hr⟩)
                · exact .inl hx
                · exact .inr ⟨hk, by simp⟩
                · exact .inr ⟨hs, by simp [hr]⟩
              · rintro (hx | ⟨hs, hr⟩)
                · exact .inl (.inl hx)
                · rcases List.mem_cons.mp hr with rfl | hr
                  · exact .inl (.inr rfl)
                  · exact .inr ⟨hs, hr⟩
            · rw [if_neg hk]
              constructor
              · rintro (hx | ⟨hs, hr⟩)
                · exact .inl hx
                · exact .inr ⟨hs, by simp [hr]⟩
              · rintro (hx | ⟨hs, hr⟩)
                · exact .inl hx
                · rcases List.mem_cons.mp hr with rfl | hr
                  · exact absurd hs hk
                  · exact .inr ⟨hs, hr⟩

/-- One cost iteration: the heap stays an extension matching the
estimator trace, the walk trace gains exactly this cost's ancestor walk
(whose members are all pre-existing nodes), and on normal completion the
`stochastic_nodes` set has gained exactly the stochastic walked
ancestors. -/
theorem costStep_spec {g : Graph} {st : BState} {c : Nat}
    (hext : GraphExtends g st.g st.estimCalls) (hcl : ClosedGraph g)
    (hc : c < g.size) :
    GraphExtends g (costStep st c).1.g (costStep st c).1.estimCalls ∧
    (costStep st c).1.walks = st.walks ++ [(c, walkParents st.g c)] ∧
    (∀ x ∈ walkParents st.g c, x < g.size) ∧
    ((costStep st c).2 = none →
      (st.snodes.Nodup → (costStep st c).1.snodes.Nodup) ∧
      (∀ x, x ∈ (costStep st c).1.snodes ↔
        (x ∈ st.snodes ∨
          ((g.node x).kind = .stoch ∧ x ∈ walkParents st.g c)))) := by
  have hparbound : ∀ x, x < g.size → ∀ y ∈ parentIds st.g x, y < g.size := by
    intro x hx y hy
    have hstab : parentIds st.g x = parentIds g x := by
      unfold parentIds
      rw [(hext.node_pres x hx).2.2.2.1]
    rw [hstab] at hy
    unfold parentIds at hy
    obtain ⟨e, he, rfl⟩ := List.mem_map.mp hy
    exact hcl x hx e he
  have hwbound : ∀ x ∈ walkParents st.g c, x < g.size := by
    unfold walkParents
    apply walkBFS_lt st.g g.size hparbound
    · exact hparbound c hc
    · intro x hx
      cases hx
  unfold costStep
  dsimp only
  set cT : STensor :=
    { shape := (st.g.node c).tensor, plates := (st.g.node c).plates,
      requiresGrad := (st.g.node c).requiresGrad } with hcT
  set avg : STensor :=
    List.foldl (fun a p => p.reduce a false) cT cT.multi_dim_plates with havg
  set st2 : BState :=
    { g := st.g, total := pyAdd st.total avg, accum := st.accum,
      snodes := st.snodes, walks := st.walks ++ [(c, walkParents st.g c)],
      estimCalls := st.estimCalls } with hst2
  have hsp := @runParents_spec g c cT (walkParents st.g c) st2
    (by exact hext) hwbound
  rcases hrp : runParents c cT (walkParents st.g c) st2 with ⟨st', e⟩
  rw [hrp] at hsp
  cases e with
  | none =>
      obtain ⟨hspext, hspwalks, hspsn⟩ := hsp
      obtain ⟨hspnd, hspmem⟩ := hspsn rfl
      refine ⟨hspext, hspwalks, hwbound, fun _ => ⟨hspnd, hspmem⟩⟩
  | some e =>
      obtain ⟨hspext, hspwalks, -⟩ := hsp
      refine ⟨hspext, hspwalks, hwbound, fun hcon => ?_⟩
      cases hcon

/-- Running all cost iterations keeps the heap an extension matching the
estimator trace and the walk trace in range, and on normal completion
the `stochastic_nodes` characterization is preserved. -/
theorem runCosts_spec {g : Graph} (hcl : ClosedGraph g) :
    ∀ (cs : List Nat) (st : BState),
      (∀ c ∈ cs, c < g.size) →
      GraphExtends g st.g st.estimCalls →
      WalksBound g st →
      GraphExtends g (runCosts cs st).1.g (runCosts cs st).1.estimCalls ∧
      WalksBound g (runCosts cs st).1 ∧
      ((runCosts cs st).2 = none →
        SnodesChar g st → SnodesChar g (runCosts cs st).1) := by
  intro cs
  induction cs with
  | nil =>
      intro st _ hext hwb
      exact ⟨hext, hwb, fun _ => id⟩
  | cons c rest ih =>
      intro st hcs hext hwb
      have hc : c < g.size := hcs c (by simp)
      obtain ⟨hcext, hcwalks, hcwb, hcsn⟩ := costStep_spec hext hcl hc
      unfold runCosts
      rcases hcsf : costStep st c with ⟨st', e⟩
      rw [hcsf] at hcext hcwalks hcsn
      have hwb' : WalksBound g st' := by
        intro cw hcw x hx
        rw [hcwalks] at hcw
        rcases List.mem_append.mp hcw with hcw | hcw
        · exact hwb cw hcw x hx
        · rw [List.mem_singleton.mp hcw] at hx
          exact hcwb x hx
      cases e with
      | none =>
          obtain ⟨hnd', hmem'⟩ := hcsn rfl
          have hchar' : SnodesChar g st → SnodesChar g st' := by
            rintro ⟨hnd, hmem⟩
            refine ⟨hnd' hnd, fun x => ?_⟩
            rw [hmem' x, hmem x, hcwalks]
            constructor
            · rintro (⟨hs, cw, hcw, hx⟩ | ⟨hs, hx⟩)
              · exact ⟨hs, cw, List.mem_append.mpr (.inl hcw), hx⟩
              · exact ⟨hs, (c, walkParents st.g c),
                  List.mem_append.mpr (.inr (by simp)), hx⟩
            · rintro ⟨hs, cw, hcw, hx⟩
              rcases List.mem_append.mp hcw with hcw | hcw
              · exact .inl ⟨hs, cw, hcw, hx⟩
              · rw [List.mem_singleton.mp hcw] at hx
                exact .inr ⟨hs, hx⟩
          obtain ⟨ihext, ihwb, ihsn⟩ :=
            ih st' (fun x hx => hcs x (by simp [hx])) hcext hwb'
          exact ⟨ihext, ihwb, fun hdone hchar =>
            ihsn hdone (hchar' hchar)⟩
      | some e =>
          refine ⟨hcext, hwb', fun hcon => ?_⟩
          cases hcon

/-- The executable closure check implies the closure predicate. -/
theorem closedGraph_of_b {g : Graph} (h : closedGraphB g = true) :
    ClosedGraph g := by
  intro i hi e he
  have h1 := List.all_eq_true.mp h i (List.mem_range.mpr hi)
  have h2 := List.all_eq_true.mp h1 e he
  exact of_decide_eq_true h2

/-! ### C8 -/

/-- C8: `backward` permanently mutates the graph it traverses: per
estimator invocation it creates one transient node that shares the
ancestor's parent list and appends an edge to it onto the `_children`
list of each of the ancestor's parents; those entries are never removed
(every pre-existing child list survives as a prefix, extended only with
edges to transient nodes), while every other field of every pre-existing
node — in particular `_parents` — is unchanged.  This holds whether or
not the call completes normally. -/
theorem backward_splices_transients (g : Graph) (reg : List Nat)
    (retain : Bool) (hcl : ClosedGraph g) (hreg : ∀ c ∈ reg, c < g.size) :
    GraphExtends g (backward g reg retain).graph
      (backward g reg retain).estimCalls := by
  have hinit : WalksBound g (⟨g, .float 0, .float 0, [], [], []⟩ : BState) := by
    intro cw hcw
    cases hcw
  have hspec := runCosts_spec hcl reg ⟨g, .float 0, .float 0, [], [], []⟩
    hreg (graphExtends_refl g) hinit
  unfold backward
  rcases hrc : runCosts reg ⟨g, .float 0, .float 0, [], [], []⟩ with ⟨st, e⟩
  rw [hrc] at hspec
  simp only [hrc]
  cases e
  · exact hspec.1
  · exact hspec.1

/-- C8 witness: on the chain graph `cost 0 ← stochastic 1 ←
deterministic 2` the claim applies; concretely one transient node 3 is
created with node 1's parent list, the edge `(3, true)` is appended to
node 2's children, and a second retained call appends a further edge
`(4, true)` — repeated backward calls on a retained graph grow the
children lists. -/
theorem backward_splices_transients_witness :
    ClosedGraph gB ∧ (∀ c ∈ ([0] : List Nat), c < gB.size) ∧
    GraphExtends gB (backward gB [0] false).graph
      (backward gB [0] false).estimCalls ∧
    ((backward gB [0] false).graph.node 2).children = [(1, true), (3, true)] ∧
    (backward gB [0] false).graph.size = 4 ∧
    ((backward gB [0] false).graph.node 3).parents = [(2, true)] ∧
    ((backward gB [0] false).graph.node 1).parents = [(2, true)] ∧
    ((backward (backward gB [0] true).graph [0] true).graph.node 2).children
      = [(1, true), (3, true), (4, true)] :=
  ⟨closedGraph_of_b (by decide), by decide,
   backward_splices_transients gB [0] false (closedGraph_of_b (by decide))
     (by decide),
   by rfl, by rfl, by rfl, by rfl, by rfl⟩

/-! ### C9 -/

/-- C9: during a `backward` call whose cost loop runs to completion, the
parameter-update hook is invoked exactly once per distinct stochastic
ancestor discovered by the recorded per-cost walks — including ancestors
that were skipped for the surrogate loss because they do not require
gradient or their strategy's `adds_loss` returned false. -/
theorem backward_updates_once_per_ancestor (g : Graph) (reg : List Nat)
    (retain : Bool) (hcl : ClosedGraph g) (hreg : ∀ c ∈ reg, c < g.size)
    (hdone : (backward g reg retain).completed = true) :
    (backward g reg retain).updateCalls.Nodup ∧
    (∀ x, x ∈ (backward g reg retain).updateCalls ↔
      ((g.node x).kind = .stoch ∧
        ∃ cw ∈ (backward g reg retain).walks, x ∈ cw.2)) ∧
    (∀ x ∈ (backward g reg retain).updateCalls,
      (backward g reg retain).updateCalls.count x = 1) := by
  have hinit : WalksBound g (⟨g, .float 0, .float 0, [], [], []⟩ : BState) := by
    intro cw hcw
    cases hcw
  have hspec := runCosts_spec hcl reg ⟨g, .float 0, .float 0, [], [], []⟩
    hreg (graphExtends_refl g) hinit
  have hchar0 : SnodesChar g (⟨g, .float 0, .float 0, [], [], []⟩ : BState) := by
    refine ⟨List.nodup_nil, fun x => ?_⟩
    constructor
    · intro hx
      cases hx
    · rintro ⟨-, cw, hcw, -⟩
      cases hcw
  unfold backward at hdone ⊢
  rcases hrc : runCosts reg ⟨g, .float 0, .float 0, [], [], []⟩ with ⟨st, e⟩
  rw [hrc] at hspec
  simp only [hrc] at hdone ⊢
  cases e with
  | none =>
      obtain ⟨hnd, hmem⟩ := hspec.2.2 rfl hchar0
      exact ⟨hnd, hmem, fun x hx => List.count_eq_one_of_mem hnd hx⟩
  | some e =>
      simp at hdone

/-- C9 witness: on a cost with two stochastic parents, one of which is
skipped (it does not require grad), the update hook still runs once for
each; concretely `updateCalls = [1, 2]` while only one estimator call
happened. -/
theorem backward_updates_once_per_ancestor_witness :
    ClosedGraph gS ∧ (∀ c ∈ ([0] : List Nat), c < gS.size) ∧
    (backward gS [0] false).completed = true ∧
    ((backward gS [0] false).updateCalls.Nodup ∧
      (∀ x, x ∈ (backward gS [0] false).updateCalls ↔
        ((gS.node x).kind = .stoch ∧
          ∃ cw ∈ (backward gS [0] false).walks, x ∈ cw.2)) ∧
      (∀ x ∈ (backward gS [0] false).updateCalls,
        (backward gS [0] false).updateCalls.count x = 1)) ∧
    (backward gS [0] false).updateCalls = [1, 2] ∧
    (backward gS [0] false).estimCalls.length = 1 :=
  ⟨closedGraph_of_b (by decide), by decide, by rfl,
   backward_updates_once_per_ancestor gS [0] false (closedGraph_of_b (by decide))
     (by decide) (by rfl),
   by rfl, by rfl⟩
